import Mathlib

/-!
Verification of the Struktur tree engine and archive builder.

The development shallowly embeds the core of the repository:
the recursive tree-mutation engine `modifyTree` and the four
node-level rules (add / rename / toggle-expand / delete) from
`src/App.tsx`, the bulk expand operation `setAllExpanded`, the
inline-editor confirmation handler `handleConfirm` from
`components/DirectoryNode.tsx`, and the archive serialization walk
`addNodeToZip` / `createZipFromStructure` from `services/zipService.ts`.

Two models are given:
* a plain structural model (`FileSystemNode`, `modifyTree`, ...) used
  for all functional-correctness claims; in this model the engine's
  `child !== node.children[index]` reference comparison is rendered as
  structural disequality, which produces the same output tree because a
  kept reference is always structurally equal to the candidate
  replacement, and replacing a value by a structurally equal one does
  not change the result;
* a reference-tracking model (`RNode`, `modifyTreeRef`) in which every
  JavaScript object allocation (`{...node, ...}` literals) consumes a
  fresh address from a counter, so object identity of JavaScript values
  is captured exactly: two values are the same object reference iff
  they carry the same address (fresh addresses never collide with
  addresses of live input nodes).
-/

namespace Struktur

/-- The `NodeType` union from `types.ts`: `'folder' | 'file'`. -/
inductive NodeType where
  | folder
  | file
deriving DecidableEq, Repr

/-- The `FileSystemNode` interface from `types.ts`: `id`, `name`,
`type`, optional `children` array, optional `isExpanded` flag.
An absent optional field is `none`. -/
inductive FileSystemNode where
  | mk (id : String) (name : String) (type : NodeType)
       (children : Option (List FileSystemNode)) (isExpanded : Option Bool)

def FileSystemNode.id : FileSystemNode → String
  | .mk i _ _ _ _ => i

def FileSystemNode.name : FileSystemNode → String
  | .mk _ n _ _ _ => n

def FileSystemNode.type : FileSystemNode → NodeType
  | .mk _ _ t _ _ => t

def FileSystemNode.children : FileSystemNode → Option (List FileSystemNode)
  | .mk _ _ _ c _ => c

def FileSystemNode.isExpanded : FileSystemNode → Option Bool
  | .mk _ _ _ _ e => e

/-- The children list of a node, defaulting to `[]` when the
`children` field is absent (the `node.children || []` idiom). -/
def FileSystemNode.childrenOf (n : FileSystemNode) : List FileSystemNode :=
  n.children.getD []

@[simp] theorem FileSystemNode.id_mk (i nm : String) (ty : NodeType)
    (ch : Option (List FileSystemNode)) (e : Option Bool) :
    (FileSystemNode.mk i nm ty ch e).id = i := rfl

@[simp] theorem FileSystemNode.name_mk (i nm : String) (ty : NodeType)
    (ch : Option (List FileSystemNode)) (e : Option Bool) :
    (FileSystemNode.mk i nm ty ch e).name = nm := rfl

@[simp] theorem FileSystemNode.type_mk (i nm : String) (ty : NodeType)
    (ch : Option (List FileSystemNode)) (e : Option Bool) :
    (FileSystemNode.mk i nm ty ch e).type = ty := rfl

@[simp] theorem FileSystemNode.children_mk (i nm : String) (ty : NodeType)
    (ch : Option (List FileSystemNode)) (e : Option Bool) :
    (FileSystemNode.mk i nm ty ch e).children = ch := rfl

@[simp] theorem FileSystemNode.isExpanded_mk (i nm : String) (ty : NodeType)
    (ch : Option (List FileSystemNode)) (e : Option Bool) :
    (FileSystemNode.mk i nm ty ch e).isExpanded = e := rfl

@[simp] theorem FileSystemNode.childrenOf_mk (i nm : String) (ty : NodeType)
    (ch : Option (List FileSystemNode)) (e : Option Bool) :
    (FileSystemNode.mk i nm ty ch e).childrenOf = ch.getD [] := rfl

mutual

/-- Structural equality test on trees (component used to give
`FileSystemNode` decidable equality). -/
def FileSystemNode.beq : FileSystemNode → FileSystemNode → Bool
  | .mk i1 n1 t1 c1 e1, .mk i2 n2 t2 c2 e2 =>
    i1 == i2 && n1 == n2 && t1 == t2 && e1 == e2 &&
      (match c1, c2 with
       | none, none => true
       | some l1, some l2 => FileSystemNode.beqChildren l1 l2
       | _, _ => false)
termination_by structural n => n

/-- Pointwise structural equality on child lists. -/
def FileSystemNode.beqChildren : List FileSystemNode → List FileSystemNode → Bool
  | [], [] => true
  | a :: as, b :: bs => FileSystemNode.beq a b && FileSystemNode.beqChildren as bs
  | _, _ => false
termination_by structural l => l

end

mutual

theorem FileSystemNode.beqIff : ∀ a b : FileSystemNode, FileSystemNode.beq a b = true ↔ a = b
  | .mk i nm ty none e, .mk i2 nm2 ty2 none e2 => by
    simp [FileSystemNode.beq, FileSystemNode.mk.injEq, and_assoc]
  | .mk i nm ty none e, .mk i2 nm2 ty2 (some cs2) e2 => by
    simp [FileSystemNode.beq]
  | .mk i nm ty (some cs) e, .mk i2 nm2 ty2 none e2 => by
    simp [FileSystemNode.beq]
  | .mk i nm ty (some cs) e, .mk i2 nm2 ty2 (some cs2) e2 => by
    simp only [FileSystemNode.beq, Bool.and_eq_true, beq_iff_eq, FileSystemNode.mk.injEq,
      Option.some.injEq]
    rw [FileSystemNode.beqChildrenIff cs cs2]
    tauto
termination_by structural a => a

theorem FileSystemNode.beqChildrenIff :
    ∀ l1 l2 : List FileSystemNode, FileSystemNode.beqChildren l1 l2 = true ↔ l1 = l2
  | [], [] => by simp [FileSystemNode.beqChildren]
  | [], _ :: _ => by simp [FileSystemNode.beqChildren]
  | _ :: _, [] => by simp [FileSystemNode.beqChildren]
  | a :: as, b :: bs => by
    simp only [FileSystemNode.beqChildren, Bool.and_eq_true, List.cons.injEq]
    rw [FileSystemNode.beqIff a b, FileSystemNode.beqChildrenIff as bs]
termination_by structural l1 => l1

end

instance : BEq FileSystemNode := ⟨FileSystemNode.beq⟩

instance : LawfulBEq FileSystemNode where
  eq_of_beq h := (FileSystemNode.beqIff _ _).1 h
  rfl := (FileSystemNode.beqIff _ _).2 rfl

instance : DecidableEq FileSystemNode :=
  fun a b => decidable_of_iff _ (FileSystemNode.beqIff a b)

mutual

/-- Tailored induction principle for the nested tree type: to prove a
property of every node it suffices to prove it for a node assuming it
for all elements of its (present) children list. -/
theorem FileSystemNode.ind2 {motive : FileSystemNode → Prop}
    (h : ∀ i nm ty ch e, (∀ cs, ch = some cs → ∀ c ∈ cs, motive c) →
         motive (.mk i nm ty ch e)) :
    ∀ t, motive t
  | .mk i nm ty none e => h i nm ty none e (fun _ hcs => by cases hcs)
  | .mk i nm ty (some cs) e =>
    h i nm ty (some cs) e (fun cs2 hcs2 c hc => by
      injection hcs2 with hh
      subst hh
      exact FileSystemNode.ind2List h cs c hc)
termination_by structural t => t

theorem FileSystemNode.ind2List {motive : FileSystemNode → Prop}
    (h : ∀ i nm ty ch e, (∀ cs, ch = some cs → ∀ c ∈ cs, motive c) →
         motive (.mk i nm ty ch e)) :
    ∀ l : List FileSystemNode, ∀ c ∈ l, motive c
  | a :: as, c, hc => by
    rcases List.mem_cons.1 hc with h1 | h2
    · exact h1 ▸ FileSystemNode.ind2 h a
    · exact FileSystemNode.ind2List h as c h2
termination_by structural l => l

end

/-! The tree-mutation engine `modifyTree` from `src/App.tsx`.

Source (App.tsx, lines 90-105):
```
const modifyTree = (node, logic) => {
    let childrenChanged = false;
    let newChildren = [];
    if (node.children) {
        newChildren = node.children
            .map(child => modifyTree(child, logic))
            .filter(child => child !== null);
        childrenChanged = newChildren.length !== node.children.length ||
            newChildren.some((child, index) => child !== node.children[index]);
    }
    const nodeToProcess = childrenChanged ? { ...node, children: newChildren } : node;
    return logic(nodeToProcess);
};
```
The `.some((child, index) => ...)` comparison runs over the indices of
`newChildren`, which is never longer than `node.children`; it is
rendered with `zip`, which compares the same pairs. -/

mutual

/-- The `node.children.map(child => modifyTree(child, logic))` step. -/
def modifyChildren (logic : FileSystemNode → Option FileSystemNode) :
    List FileSystemNode → List (Option FileSystemNode)
  | [] => []
  | c :: cs => modifyTree c logic :: modifyChildren logic cs
termination_by structural l => l

/-- The recursive engine: transform children bottom-up, drop removed
children, rebuild the node when the children list changed, then apply
the rule to the (possibly rebuilt) node. -/
def modifyTree (node : FileSystemNode) (logic : FileSystemNode → Option FileSystemNode) :
    Option FileSystemNode :=
  match node with
  | .mk i nm ty none e => logic (.mk i nm ty none e)
  | .mk i nm ty (some cs) e =>
    let newChildren := (modifyChildren logic cs).filterMap (fun x => x)
    let childrenChanged : Bool :=
      newChildren.length != cs.length ||
        (newChildren.zip cs).any (fun p => p.1 != p.2)
    let nodeToProcess :=
      if childrenChanged then FileSystemNode.mk i nm ty (some newChildren) e
      else FileSystemNode.mk i nm ty (some cs) e
    logic nodeToProcess
termination_by structural node

end

/-- The `updateTree` wrapper from App.tsx: a `null` current tree stays
`null`, otherwise the engine result becomes the new tree. -/
def updateTree (logic : FileSystemNode → Option FileSystemNode)
    (tree : Option FileSystemNode) : Option FileSystemNode :=
  match tree with
  | none => none
  | some t => modifyTree t logic

/-- The rule built by `handleAddNode`: a node matching the parent id
and of folder type is replaced by a copy with the new node appended to
its children (`[...(node.children || []), newNodeData]`) and
`isExpanded` forced `true`; every other node is returned as-is. -/
def addLogic (parentId : String) (newNodeData : FileSystemNode)
    (n : FileSystemNode) : Option FileSystemNode :=
  if n.id == parentId && n.type == NodeType.folder then
    some (.mk n.id n.name n.type (some (n.childrenOf ++ [newNodeData])) (some true))
  else
    some n

/-- The `newNodeData` object built by `handleAddNode`. Its id
is the string `` `${parentId}-${Date.now()}-${Math.random()}` ``; the
clock/random part is modelled by taking the generated id as the
parameter `freshId`. -/
def newNodeData (freshId : String) (name : String) (ty : NodeType) : FileSystemNode :=
  .mk freshId name ty
    (if ty == NodeType.folder then some [] else none)
    (if ty == NodeType.folder then some true else none)

/-- `handleAddNode(parentId, name, type)` from App.tsx. -/
def handleAddNode (parentId freshId name : String) (ty : NodeType)
    (tree : Option FileSystemNode) : Option FileSystemNode :=
  updateTree (addLogic parentId (newNodeData freshId name ty)) tree

/-- The rule built by `handleDeleteNode`: a node matching the id is
removed (the rule returns `null`), every other node passes through. -/
def deleteLogic (nodeId : String) (n : FileSystemNode) : Option FileSystemNode :=
  if n.id == nodeId then none else some n

/-- `handleDeleteNode(nodeId)` from App.tsx: a delete targeting the
literal id `'root'` returns without touching the tree; any other id is
handed to the engine with the delete rule. -/
def handleDeleteNode (nodeId : String) (tree : Option FileSystemNode) :
    Option FileSystemNode :=
  if nodeId == "root" then tree
  else updateTree (deleteLogic nodeId) tree

/-- The rule built by `handleRenameNode`: the node matching the id is
replaced by a copy with `name` replaced by `newName` (the string the
caller passed, as-is); every other node passes through. -/
def renameLogic (nodeId newName : String) (n : FileSystemNode) : Option FileSystemNode :=
  if n.id == nodeId then
    some (.mk n.id newName n.type n.children n.isExpanded)
  else
    some n

/-- `handleRenameNode(nodeId, newName)` from App.tsx. -/
def handleRenameNode (nodeId newName : String) (tree : Option FileSystemNode) :
    Option FileSystemNode :=
  updateTree (renameLogic nodeId newName) tree

/-- The rule built by `handleToggleExpand`: the folder node matching
the id is replaced by a copy with `isExpanded: !node.isExpanded`; the
JavaScript `!` treats an absent (`undefined`) or `false` flag as falsy,
so the new flag is the negation of `isExpanded.getD false`, stored as a
present boolean. -/
def toggleLogic (nodeId : String) (n : FileSystemNode) : Option FileSystemNode :=
  if n.id == nodeId && n.type == NodeType.folder then
    some (.mk n.id n.name n.type n.children (some (!(n.isExpanded.getD false))))
  else
    some n

/-- `handleToggleExpand(nodeId)` from App.tsx. -/
def handleToggleExpand (nodeId : String) (tree : Option FileSystemNode) :
    Option FileSystemNode :=
  updateTree (toggleLogic nodeId) tree

mutual

/-- The recursive body of `setAllExpanded` from App.tsx
(`recursiveSet`): copy the node; if it is a folder overwrite
`isExpanded` with the given value and, when a children array is
present, map the recursion over it; a file node is returned as a copy
with unchanged fields. -/
def recursiveSet (isExpanded : Bool) : FileSystemNode → FileSystemNode
  | .mk i nm ty none e =>
    if ty == NodeType.folder then .mk i nm ty none (some isExpanded)
    else .mk i nm ty none e
  | .mk i nm ty (some cs) e =>
    if ty == NodeType.folder then
      .mk i nm ty (some (recursiveSetChildren isExpanded cs)) (some isExpanded)
    else .mk i nm ty (some cs) e
termination_by structural n => n

def recursiveSetChildren (isExpanded : Bool) : List FileSystemNode → List FileSystemNode
  | [] => []
  | c :: cs => recursiveSet isExpanded c :: recursiveSetChildren isExpanded cs
termination_by structural l => l

end

/-- `setAllExpanded(isExpanded)` from App.tsx: with no tree open it
does nothing, otherwise the current tree is replaced by the recursive
result. -/
def setAllExpanded (isExpanded : Bool) (tree : Option FileSystemNode) :
    Option FileSystemNode :=
  match tree with
  | none => none
  | some t => some (recursiveSet isExpanded t)

/-- The ECMAScript whitespace test used by `String.prototype.trim`:
the WhiteSpace production (TAB U+0009, VT U+000B, FF U+000C,
SP U+0020, NBSP U+00A0, ZWNBSP U+FEFF, and the Unicode
Space_Separator category U+1680, U+2000-U+200A, U+202F, U+205F,
U+3000) together with the LineTerminator production (LF U+000A,
CR U+000D, LS U+2028, PS U+2029). -/
def isJsWhitespace (c : Char) : Bool :=
  c.toNat == 0x0009 || c.toNat == 0x000A || c.toNat == 0x000B ||
  c.toNat == 0x000C || c.toNat == 0x000D || c.toNat == 0x0020 ||
  c.toNat == 0x00A0 || c.toNat == 0x1680 ||
  (decide (0x2000 ≤ c.toNat) && decide (c.toNat ≤ 0x200A)) ||
  c.toNat == 0x2028 || c.toNat == 0x2029 || c.toNat == 0x202F ||
  c.toNat == 0x205F || c.toNat == 0x3000 || c.toNat == 0xFEFF

/-- JavaScript `String.prototype.trim` as used by `handleConfirm`
(`inputValue.trim()`), modelled on the string's character list. -/
def jsTrim (s : String) : String :=
  String.mk (((s.data.dropWhile isJsWhitespace).reverse.dropWhile isJsWhitespace).reverse)

/-- `handleConfirm` from `components/DirectoryNode.tsx`, restricted to
its effect on the tree: an input that trims to the empty string
discards the edit (the tree is untouched); otherwise, if an add is
pending the add handler is invoked with the raw input as name, else if
a rename is pending the rename handler is invoked with the raw input
as the new name. -/
def handleConfirm (isAdding : Option NodeType) (isRenaming : Bool)
    (inputValue : String) (nodeId freshId : String)
    (tree : Option FileSystemNode) : Option FileSystemNode :=
  if jsTrim inputValue == "" then tree
  else
    match isAdding with
    | some ty => handleAddNode nodeId freshId inputValue ty tree
    | none => if isRenaming then handleRenameNode nodeId inputValue tree else tree

/-! Archive builder from `services/zipService.ts`.

A JSZip archive is modelled as the list of entries it contains, in
creation order. `zipFolder.folder(name)` registers a directory entry
at `parent ++ name ++ "/"` and returns that path as the new parent
context; `zipFolder.file(name, '')` registers a file entry with empty
content. Explicitly created folders are included in the generated
archive as directory entries. -/

/-- One entry of the generated archive. -/
inductive ZipEntry where
  | dir (path : String)
  | file (path : String) (content : String)
deriving DecidableEq, Repr

mutual

/-- `addNodeToZip(node, zipFolder)`: a folder node creates a directory
entry and recurses into its children (when present) with the new
directory as parent; a file node creates an empty-content file entry. -/
def addNodeToZip (node : FileSystemNode) (parentPath : String) : List ZipEntry :=
  match node with
  | .mk _ nm NodeType.folder ch _ =>
    ZipEntry.dir (parentPath ++ nm ++ "/") ::
      (match ch with
       | none => []
       | some cs => addChildrenToZip cs (parentPath ++ nm ++ "/"))
  | .mk _ nm NodeType.file _ _ =>
    [ZipEntry.file (parentPath ++ nm) ""]
termination_by structural node

def addChildrenToZip (cs : List FileSystemNode) (parentPath : String) : List ZipEntry :=
  match cs with
  | [] => []
  | c :: rest => addNodeToZip c parentPath ++ addChildrenToZip rest parentPath
termination_by structural cs

end

/-- The entry list produced by `createZipFromStructure(rootNode)`: the
root node's name becomes the top-level directory entry
(`zip.folder(rootNode.name)`), and each child is added under it. -/
def createZipFromStructure (rootNode : FileSystemNode) : List ZipEntry :=
  ZipEntry.dir (rootNode.name ++ "/") ::
    (match rootNode.children with
     | none => []
     | some cs => addChildrenToZip cs (rootNode.name ++ "/"))

/-- Observable outcome of one run of `createZipFromStructure`:
the blob offered for download via the synthesized anchor click (if
any), whether an error `alert` was shown, and whether the returned
promise rejects so that the caller's own error handler can observe the
failure. -/
structure ZipDownloadResult where
  offered : Option (List ZipEntry)
  alerted : Bool
  raisedToCaller : Bool
deriving DecidableEq, Repr

/-- Behaviour of `createZipFromStructure` including its failure
handling: if the JSZip global is missing it alerts and returns; if
`generateAsync` succeeds the blob is offered for download; if
`generateAsync` rejects, the `catch` block logs and alerts, and the
function returns normally — the rejection is not re-thrown, so the
promise returned to the caller resolves. The success of
`generateAsync` is an environment input, modelled as a boolean. -/
def createZipRun (rootNode : FileSystemNode) (jszipLoaded generateSucceeds : Bool) :
    ZipDownloadResult :=
  if !jszipLoaded then ⟨none, true, false⟩
  else if generateSucceeds then ⟨some (createZipFromStructure rootNode), false, false⟩
  else ⟨none, true, false⟩

/-! Spec-level traversal helpers used to state properties. -/

mutual

/-- All nodes of a tree in depth-first pre-order (the node itself
followed by the nodes of its children in order). -/
def nodesList : FileSystemNode → List FileSystemNode
  | .mk i nm ty none e => [.mk i nm ty none e]
  | .mk i nm ty (some cs) e => .mk i nm ty (some cs) e :: nodesChildren cs
termination_by structural n => n

def nodesChildren : List FileSystemNode → List FileSystemNode
  | [] => []
  | c :: cs => nodesList c ++ nodesChildren cs
termination_by structural l => l

end

/-- Total number of nodes in a tree. -/
def countNodes (t : FileSystemNode) : Nat :=
  (nodesList t).length

/-- The ids of all nodes of a tree in pre-order. -/
def idsList (t : FileSystemNode) : List String :=
  (nodesList t).map FileSystemNode.id

mutual

/-- Bottom-up application of a total node transformation `h`: children
first, then `h` on the node carrying the transformed children. The
engine `modifyTree` run with a rule that never deletes computes
exactly this (proved below). -/
def applyAll (h : FileSystemNode → FileSystemNode) : FileSystemNode → FileSystemNode
  | .mk i nm ty none e => h (.mk i nm ty none e)
  | .mk i nm ty (some cs) e => h (.mk i nm ty (some (applyAllChildren h cs)) e)
termination_by structural n => n

def applyAllChildren (h : FileSystemNode → FileSystemNode) :
    List FileSystemNode → List FileSystemNode
  | [] => []
  | c :: cs => applyAll h c :: applyAllChildren h cs
termination_by structural l => l

end

mutual

/-- Bottom-up removal of every subtree whose root has the given id.
The engine `modifyTree` run with the delete rule computes exactly this
(proved below). -/
def removeById (nodeId : String) : FileSystemNode → Option FileSystemNode
  | .mk i nm ty none e =>
    if i = nodeId then none else some (.mk i nm ty none e)
  | .mk i nm ty (some cs) e =>
    if i = nodeId then none
    else some (.mk i nm ty (some (removeChildrenById nodeId cs)) e)
termination_by structural n => n

def removeChildrenById (nodeId : String) : List FileSystemNode → List FileSystemNode
  | [] => []
  | c :: cs =>
    match removeById nodeId c with
    | none => removeChildrenById nodeId cs
    | some c2 => c2 :: removeChildrenById nodeId cs
termination_by structural l => l

end

mutual

/-- Erase every `isExpanded` flag; two trees with the same erasure
have identical id / name / type / children skeletons. -/
def stripExpanded : FileSystemNode → FileSystemNode
  | .mk i nm ty none _ => .mk i nm ty none none
  | .mk i nm ty (some cs) _ => .mk i nm ty (some (stripExpandedChildren cs)) none
termination_by structural n => n

def stripExpandedChildren : List FileSystemNode → List FileSystemNode
  | [] => []
  | c :: cs => stripExpanded c :: stripExpandedChildren cs
termination_by structural l => l

end

/-! Reference-tracking model of the engine, used for the referential
stability guarantee. Each node carries the heap address of the
JavaScript object representing it; every evaluation of an object
literal (`{...node, ...}`) consumes a fresh address from a counter
threaded through the computation. The engine's `!==` comparisons test
reference identity, which is address disequality: a node returned
unchanged keeps its address, while every copy receives an address that
was never used before. -/

/-- A `FileSystemNode` value together with the address of the object
holding it. -/
inductive RNode where
  | mk (addr : Nat) (id : String) (name : String) (type : NodeType)
       (children : Option (List RNode)) (isExpanded : Option Bool)
deriving Repr

def RNode.addr : RNode → Nat
  | .mk a _ _ _ _ _ => a

def RNode.id : RNode → String
  | .mk _ i _ _ _ _ => i

def RNode.name : RNode → String
  | .mk _ _ n _ _ _ => n

@[simp] theorem RNode.mkAddr (a : Nat) (i nm : String) (ty : NodeType)
    (ch : Option (List RNode)) (e : Option Bool) :
    (RNode.mk a i nm ty ch e).addr = a := rfl

@[simp] theorem RNode.mkId (a : Nat) (i nm : String) (ty : NodeType)
    (ch : Option (List RNode)) (e : Option Bool) :
    (RNode.mk a i nm ty ch e).id = i := rfl

@[simp] theorem RNode.mkName (a : Nat) (i nm : String) (ty : NodeType)
    (ch : Option (List RNode)) (e : Option Bool) :
    (RNode.mk a i nm ty ch e).name = nm := rfl

/-- What a rule (`logic`) can do with the node it receives: return
`null`, return its argument itself (the same object reference), or
return a freshly allocated object literal, whose address is supplied
by the allocator. -/
inductive RRuleResult where
  | removed
  | kept
  | allocated (build : Nat → RNode)

/-- Apply the rule to a node: `removed` yields `null`; `kept` yields
the very node (same reference, no allocation); `allocated` consumes
one fresh address. -/
def applyRefLogic (node : RNode) (logic : RNode → RRuleResult) (c : Nat) :
    Option RNode × Nat :=
  match logic node with
  | .removed => (none, c)
  | .kept => (some node, c)
  | .allocated build => (some (build c), c + 1)

mutual

/-- The engine of App.tsx on reference-tracking nodes. Identical in
structure to `modifyTree`; `child !== node.children[index]` is address
disequality, and the `{ ...node, children: newChildren }` copy built
when the children changed consumes one fresh address. -/
def modifyTreeRef (node : RNode) (logic : RNode → RRuleResult) (c : Nat) :
    Option RNode × Nat :=
  match node with
  | .mk a i nm ty none e => applyRefLogic (.mk a i nm ty none e) logic c
  | .mk a i nm ty (some cs) e =>
    let rec1 := modifyRefChildren cs logic c
    let newChildren := rec1.1.filterMap (fun x => x)
    let childrenChanged : Bool :=
      newChildren.length != cs.length ||
        (newChildren.zip cs).any (fun p => p.1.addr != p.2.addr)
    if childrenChanged then
      applyRefLogic (.mk rec1.2 i nm ty (some newChildren) e) logic (rec1.2 + 1)
    else
      applyRefLogic (.mk a i nm ty (some cs) e) logic rec1.2
termination_by structural node

def modifyRefChildren (cs : List RNode) (logic : RNode → RRuleResult) (c : Nat) :
    List (Option RNode) × Nat :=
  match cs with
  | [] => ([], c)
  | x :: xs =>
    let r1 := modifyTreeRef x logic c
    let r2 := modifyRefChildren xs logic r1.2
    (r1.1 :: r2.1, r2.2)
termination_by structural cs

end

mutual

/-- All nodes of a reference-tracking tree in pre-order. -/
def nodesRList : RNode → List RNode
  | .mk a i nm ty none e => [.mk a i nm ty none e]
  | .mk a i nm ty (some cs) e => .mk a i nm ty (some cs) e :: nodesRChildren cs
termination_by structural n => n

def nodesRChildren : List RNode → List RNode
  | [] => []
  | c :: cs => nodesRList c ++ nodesRChildren cs
termination_by structural l => l

end

/-- Test that a rule keeps a node (returns its argument unchanged). -/
def RRuleResult.isKept : RRuleResult → Bool
  | .kept => true
  | _ => false

/-- The rename rule on reference-tracking nodes: the matching node is
replaced by a freshly allocated copy with the new name; every other
node is returned as-is (`return node`). -/
def renameLogicRef (nodeId newName : String) (node : RNode) : RRuleResult :=
  if node.id == nodeId then
    .allocated (fun a =>
      match node with
      | .mk _ i _ ty ch e => .mk a i newName ty ch e)
  else .kept

/-! Basic lemmas about the engine and the traversal helpers. -/

theorem filterMap_id_map_some {α : Type} (l : List α) :
    (l.map some).filterMap (fun x => x) = l := by
  induction l with
  | nil => rfl
  | cons a l ih => simp [List.filterMap_cons, ih]

theorem modifyChildren_eq_map (logic : FileSystemNode → Option FileSystemNode) :
    ∀ cs : List FileSystemNode, modifyChildren logic cs = cs.map (fun c => modifyTree c logic) := by
  intro cs
  induction cs with
  | nil => simp [modifyChildren]
  | cons c cs ih => simp [modifyChildren, ih]

theorem eq_of_childrenChanged_false {l1 l2 : List FileSystemNode}
    (h : (l1.length != l2.length || (l1.zip l2).any (fun p => p.1 != p.2)) = false) :
    l1 = l2 := by
  rw [Bool.or_eq_false_iff] at h
  obtain ⟨hlen, hzip⟩ := h
  rw [bne_eq_false_iff_eq] at hlen
  rw [List.any_eq_false] at hzip
  apply List.ext_getElem hlen
  intro i h1 h2
  have hm : (l1[i], l2[i]) ∈ l1.zip l2 := by
    have hi : i < (l1.zip l2).length := by
      simp only [List.length_zip]
      omega
    have := List.getElem_mem hi
    rwa [List.getElem_zip] at this
  have := hzip _ hm
  simpa using this

theorem applyAllChildren_eq_map (h : FileSystemNode → FileSystemNode) :
    ∀ cs : List FileSystemNode, applyAllChildren h cs = cs.map (applyAll h) := by
  intro cs
  induction cs with
  | nil => simp [applyAllChildren]
  | cons c cs ih => simp [applyAllChildren, ih]

/-- Refinement: the engine run with a rule that never deletes
(`logic n = some (h n)`) computes the bottom-up map `applyAll h`. -/
theorem modifyTree_total (h : FileSystemNode → FileSystemNode) :
    ∀ t : FileSystemNode, modifyTree t (fun n => some (h n)) = some (applyAll h t) := by
  intro t
  induction t using FileSystemNode.ind2 with
  | h i nm ty ch e ih =>
    cases ch with
    | none => simp [modifyTree, applyAll]
    | some cs =>
      have hmap : (modifyChildren (fun n => some (h n)) cs).filterMap (fun x => x) =
          cs.map (applyAll h) := by
        rw [modifyChildren_eq_map]
        have : cs.map (fun c => modifyTree c (fun n => some (h n))) =
            cs.map (fun c => some (applyAll h c)) := by
          apply List.map_congr_left
          intro c hc
          exact ih cs rfl c hc
        rw [this]
        have h2 : cs.map (fun c => some (applyAll h c)) = (cs.map (applyAll h)).map some := by
          rw [List.map_map]; rfl
        rw [h2, filterMap_id_map_some]
      rw [modifyTree]
      simp only [hmap]
      by_cases hflag : ((cs.map (applyAll h)).length != cs.length ||
          ((cs.map (applyAll h)).zip cs).any (fun p => p.1 != p.2)) = true
      · rw [if_pos hflag]
        simp only [applyAll, applyAllChildren_eq_map]
      · rw [Bool.not_eq_true] at hflag
        have heq : cs.map (applyAll h) = cs := eq_of_childrenChanged_false hflag
        have hne : ¬(((cs.map (applyAll h)).length != cs.length ||
            ((cs.map (applyAll h)).zip cs).any (fun p => p.1 != p.2)) = true) := by
          rw [hflag]; exact Bool.false_ne_true
        rw [if_neg hne]
        simp only [applyAll, applyAllChildren_eq_map, heq]

theorem modifyChildren_filterMap_delete (x : String) (cs : List FileSystemNode)
    (ih : ∀ c ∈ cs, modifyTree c (deleteLogic x) = removeById x c) :
    (modifyChildren (deleteLogic x) cs).filterMap (fun y => y) = removeChildrenById x cs := by
  induction cs with
  | nil => simp [modifyChildren, removeChildrenById]
  | cons c cs ihl =>
    rw [modifyChildren, List.filterMap_cons, ih c (List.mem_cons_self c cs),
      removeChildrenById]
    cases removeById x c with
    | none => exact ihl (fun c hc => ih c (List.mem_cons_of_mem _ hc))
    | some c2 => rw [ihl (fun c hc => ih c (List.mem_cons_of_mem _ hc))]

/-- Refinement: the engine run with the delete rule computes the
bottom-up removal `removeById`. -/
theorem modifyTree_delete (x : String) :
    ∀ t : FileSystemNode, modifyTree t (deleteLogic x) = removeById x t := by
  intro t
  induction t using FileSystemNode.ind2 with
  | h i nm ty ch e ih =>
    cases ch with
    | none =>
      simp only [modifyTree, deleteLogic, removeById, FileSystemNode.id_mk, beq_iff_eq]
    | some cs =>
      have hmap := modifyChildren_filterMap_delete x cs (ih cs rfl)
      rw [modifyTree]
      simp only [hmap]
      by_cases hflag : ((removeChildrenById x cs).length != cs.length ||
          ((removeChildrenById x cs).zip cs).any (fun p => p.1 != p.2)) = true
      · rw [if_pos hflag]
        simp only [deleteLogic, removeById, FileSystemNode.id_mk, beq_iff_eq]
      · rw [Bool.not_eq_true] at hflag
        have heq : removeChildrenById x cs = cs := eq_of_childrenChanged_false hflag
        have hne : ¬(((removeChildrenById x cs).length != cs.length ||
            ((removeChildrenById x cs).zip cs).any (fun p => p.1 != p.2)) = true) := by
          rw [hflag]; exact Bool.false_ne_true
        rw [if_neg hne]
        simp only [deleteLogic, removeById, FileSystemNode.id_mk, beq_iff_eq, heq]

/-! Lemmas about the pre-order traversal. -/

theorem nodesList_eq (i nm : String) (ty : NodeType) (ch : Option (List FileSystemNode))
    (e : Option Bool) :
    nodesList (.mk i nm ty ch e) =
      .mk i nm ty ch e :: nodesChildren ((FileSystemNode.mk i nm ty ch e).childrenOf) := by
  cases ch with
  | none => rw [nodesList]; rfl
  | some cs => rw [nodesList]; rfl

theorem nodesList_decomp (t : FileSystemNode) :
    nodesList t = t :: nodesChildren t.childrenOf := by
  cases t with
  | mk i nm ty ch e => exact nodesList_eq i nm ty ch e

theorem self_mem_nodesList (t : FileSystemNode) : t ∈ nodesList t := by
  cases t with
  | mk i nm ty ch e => rw [nodesList_eq]; exact List.mem_cons_self _ _

theorem mem_nodesChildren {n : FileSystemNode} :
    ∀ {cs : List FileSystemNode}, n ∈ nodesChildren cs ↔ ∃ c ∈ cs, n ∈ nodesList c := by
  intro cs
  induction cs with
  | nil => simp [nodesChildren]
  | cons c cs ih =>
    rw [nodesChildren, List.mem_append, ih]
    constructor
    · rintro (h1 | ⟨c2, hc2, hn⟩)
      · exact ⟨c, List.mem_cons_self _ _, h1⟩
      · exact ⟨c2, List.mem_cons_of_mem _ hc2, hn⟩
    · rintro ⟨c2, hc2, hn⟩
      rcases List.mem_cons.1 hc2 with h1 | h2
      · exact Or.inl (h1 ▸ hn)
      · exact Or.inr ⟨c2, h2, hn⟩

theorem nodesList_sublist_nodesChildren {c : FileSystemNode} :
    ∀ {cs : List FileSystemNode}, c ∈ cs → List.Sublist (nodesList c) (nodesChildren cs) := by
  intro cs
  induction cs with
  | nil => intro h; cases h
  | cons a as ih =>
    intro h
    rcases List.mem_cons.1 h with h1 | h2
    · subst h1; rw [nodesChildren]; exact List.sublist_append_left _ _
    · rw [nodesChildren]
      exact (ih h2).trans (List.sublist_append_right _ _)

theorem nodesList_sublist_of_mem :
    ∀ t : FileSystemNode, ∀ n ∈ nodesList t, List.Sublist (nodesList n) (nodesList t) := by
  intro t
  induction t using FileSystemNode.ind2 with
  | h i nm ty ch e ih =>
    intro n hn
    rw [nodesList_eq] at hn ⊢
    rcases List.mem_cons.1 hn with h1 | h2
    · subst h1; rw [nodesList_eq]
    · rcases mem_nodesChildren.1 h2 with ⟨c, hc, hnc⟩
      cases ch with
      | none => cases hc
      | some cs =>
        have hsub := (ih cs rfl c hc n hnc).trans (nodesList_sublist_nodesChildren hc)
        exact hsub.trans (List.sublist_cons_self _ _)

theorem nodesList_subset_of_mem {t n : FileSystemNode} (h : n ∈ nodesList t) :
    nodesList n ⊆ nodesList t :=
  (nodesList_sublist_of_mem t n h).subset

theorem idsList_sublist_of_mem {t n : FileSystemNode} (h : n ∈ nodesList t) :
    List.Sublist (idsList n) (idsList t) :=
  (nodesList_sublist_of_mem t n h).map FileSystemNode.id

theorem nodup_idsList_of_mem {t n : FileSystemNode} (hnd : (idsList t).Nodup)
    (h : n ∈ nodesList t) : (idsList n).Nodup :=
  hnd.sublist (idsList_sublist_of_mem h)

theorem id_mem_idsList {t n : FileSystemNode} (h : n ∈ nodesList t) :
    n.id ∈ idsList t :=
  List.mem_map_of_mem FileSystemNode.id h

theorem self_id_mem_idsList (t : FileSystemNode) : t.id ∈ idsList t :=
  id_mem_idsList (self_mem_nodesList t)

/-- The ids of a tree, unfolded one level: the node's own id followed
by the ids contributed by each child block. -/
theorem idsList_eq (i nm : String) (ty : NodeType) (ch : Option (List FileSystemNode))
    (e : Option Bool) :
    idsList (.mk i nm ty ch e) =
      i :: (nodesChildren ((FileSystemNode.mk i nm ty ch e).childrenOf)).map FileSystemNode.id := by
  rw [idsList, nodesList_eq, List.map_cons, FileSystemNode.id_mk]

theorem idsList_decomp (t : FileSystemNode) :
    idsList t = t.id :: (nodesChildren t.childrenOf).map FileSystemNode.id := by
  cases t with
  | mk i nm ty ch e =>
    rw [idsList_eq, FileSystemNode.id_mk]

theorem nodesChildren_map_id_cons (c : FileSystemNode) (cs : List FileSystemNode) :
    (nodesChildren (c :: cs)).map FileSystemNode.id =
      idsList c ++ (nodesChildren cs).map FileSystemNode.id := by
  rw [nodesChildren, List.map_append, idsList]

theorem countNodes_eq (i nm : String) (ty : NodeType) (ch : Option (List FileSystemNode))
    (e : Option Bool) :
    countNodes (.mk i nm ty ch e) =
      1 + (((FileSystemNode.mk i nm ty ch e).childrenOf).map countNodes).sum := by
  rw [countNodes, nodesList_eq, List.length_cons]
  have : ∀ cs : List FileSystemNode,
      (nodesChildren cs).length = (cs.map countNodes).sum := by
    intro cs
    induction cs with
    | nil => rw [nodesChildren]; rfl
    | cons c cs ih =>
      rw [nodesChildren, List.length_append, ih, List.map_cons, List.sum_cons, countNodes]
  rw [this]
  omega

theorem countNodes_eq_length_idsList (t : FileSystemNode) :
    countNodes t = (idsList t).length := by
  rw [countNodes, idsList, List.length_map]

/-! Fixpoint lemmas: subtrees untouched by a rule pass through the
spec-level transforms unchanged. -/

theorem applyAll_fix (h : FileSystemNode → FileSystemNode) :
    ∀ t : FileSystemNode, (∀ m ∈ nodesList t, h m = m) → applyAll h t = t := by
  intro t
  induction t using FileSystemNode.ind2 with
  | h i nm ty ch e ih =>
    intro hfix
    cases ch with
    | none => rw [applyAll]; exact hfix _ (self_mem_nodesList _)
    | some cs =>
      have hcs : applyAllChildren h cs = cs := by
        rw [applyAllChildren_eq_map]
        have : ∀ c ∈ cs, applyAll h c = c := by
          intro c hc
          apply ih cs rfl c hc
          intro m hm
          apply hfix
          rw [nodesList_eq]
          exact List.mem_cons_of_mem _ (mem_nodesChildren.2 ⟨c, hc, hm⟩)
        calc cs.map (applyAll h) = cs.map (fun c => c) := List.map_congr_left this
          _ = cs := List.map_id _
      rw [applyAll, hcs]
      exact hfix _ (self_mem_nodesList _)

theorem removeChildrenById_fix (x : String) :
    ∀ cs : List FileSystemNode, (∀ c ∈ cs, removeById x c = some c) →
    removeChildrenById x cs = cs := by
  intro cs
  induction cs with
  | nil => intro _; rw [removeChildrenById]
  | cons c cs ihl =>
    intro h
    rw [removeChildrenById, h c (List.mem_cons_self _ _),
      ihl (fun c2 hc2 => h c2 (List.mem_cons_of_mem _ hc2))]

theorem removeById_fix (x : String) :
    ∀ t : FileSystemNode, x ∉ idsList t → removeById x t = some t := by
  intro t
  induction t using FileSystemNode.ind2 with
  | h i nm ty ch e ih =>
    intro hx
    have hxi : i ≠ x := by
      intro hcon
      exact hx (hcon ▸ self_id_mem_idsList (.mk i nm ty ch e))
    cases ch with
    | none => rw [removeById, if_neg hxi]
    | some cs =>
      have hmem : ∀ c ∈ cs, x ∉ idsList c := by
        intro c hc hcon
        apply hx
        rw [idsList_eq]
        refine List.mem_cons_of_mem _ ?_
        rcases List.mem_map.1 hcon with ⟨m, hm, hmid⟩
        exact hmid ▸ List.mem_map_of_mem FileSystemNode.id
          (mem_nodesChildren.2 ⟨c, hc, hm⟩)
      have hcs : removeChildrenById x cs = cs :=
        removeChildrenById_fix x cs (fun c hc => ih cs rfl c hc (hmem c hc))
      rw [removeById, if_neg hxi, hcs]

theorem nodesChildren_append :
    ∀ l1 l2 : List FileSystemNode,
    nodesChildren (l1 ++ l2) = nodesChildren l1 ++ nodesChildren l2 := by
  intro l1 l2
  induction l1 with
  | nil => rw [nodesChildren, List.nil_append, List.nil_append]
  | cons c cs ih => rw [List.cons_append, nodesChildren, nodesChildren, ih, List.append_assoc]

theorem removeChildrenById_append (x : String) :
    ∀ l1 l2 : List FileSystemNode,
    removeChildrenById x (l1 ++ l2) =
      removeChildrenById x l1 ++ removeChildrenById x l2 := by
  intro l1 l2
  induction l1 with
  | nil => rw [removeChildrenById, List.nil_append, List.nil_append]
  | cons c cs ih =>
    rw [List.cons_append, removeChildrenById, removeChildrenById]
    cases removeById x c with
    | none => exact ih
    | some c2 => rw [ih, List.cons_append]

theorem idsList_subset_of_mem {t n : FileSystemNode} (h : n ∈ nodesList t) :
    idsList n ⊆ idsList t :=
  List.map_subset FileSystemNode.id (nodesList_subset_of_mem h)

theorem idsList_subset_nodesChildren_map {c : FileSystemNode} {l : List FileSystemNode}
    (h : c ∈ l) : idsList c ⊆ (nodesChildren l).map FileSystemNode.id :=
  List.map_subset FileSystemNode.id (nodesList_sublist_nodesChildren h).subset

/-- In a tree with globally unique ids, a node of the tree carrying
the root's id is the root itself. -/
theorem node_eq_of_id_eq :
    ∀ t D : FileSystemNode, (idsList t).Nodup → D ∈ nodesList t → D.id = t.id → D = t := by
  intro t D hnd hD hid
  cases t with
  | mk i nm ty ch e =>
    rw [nodesList_eq] at hD
    rcases List.mem_cons.1 hD with h1 | h2
    · exact h1
    · exfalso
      have hmem : D.id ∈ (nodesChildren ((FileSystemNode.mk i nm ty ch e).childrenOf)).map
          FileSystemNode.id := List.mem_map_of_mem FileSystemNode.id h2
      rw [idsList_eq] at hnd
      rw [List.nodup_cons] at hnd
      rw [FileSystemNode.id_mk] at hid
      exact hnd.1 (hid ▸ hmem)

theorem removeById_none_of_id {x : String} {n : FileSystemNode} (h : n.id = x) :
    removeById x n = none := by
  cases n with
  | mk i nm ty ch e =>
    rw [FileSystemNode.id_mk] at h
    cases ch with
    | none => rw [removeById, if_pos h]
    | some cs => rw [removeById, if_pos h]

theorem filter_not_mem_eq_self {l S : List String} (h : ∀ s ∈ l, s ∉ S) :
    (l.filter (fun s => s ∉ S)) = l := by
  rw [List.filter_eq_self]
  intro a ha
  simpa using h a ha

theorem filter_not_mem_eq_nil {l S : List String} (h : ∀ s ∈ l, s ∈ S) :
    (l.filter (fun s => s ∉ S)) = [] := by
  rw [List.filter_eq_nil_iff]
  intro a ha
  simpa using h a ha

/-- Key deletion lemma: on a tree with globally unique ids, deleting
the id of a non-root node `D` of the tree removes exactly the subtree
rooted at `D` — the surviving ids are (in order) the original pre-order
ids with the ids of `D`'s subtree filtered out, and the node count
drops by exactly the size of `D`'s subtree. -/
theorem removeById_of_mem (D : FileSystemNode) :
    ∀ t : FileSystemNode, (idsList t).Nodup → D ∈ nodesList t → t.id ≠ D.id →
    ∃ t2, removeById D.id t = some t2 ∧
      idsList t2 = (idsList t).filter (fun s => s ∉ idsList D) ∧
      countNodes t2 + countNodes D = countNodes t := by
  intro t
  induction t using FileSystemNode.ind2 with
  | h i nm ty ch e ih =>
    intro hnd hD hne
    rw [FileSystemNode.id_mk] at hne
    rw [nodesList_eq] at hD
    rcases List.mem_cons.1 hD with hDt | hDc
    · exact absurd (show D.id = i by rw [hDt, FileSystemNode.id_mk]) (Ne.symm hne)
    · cases ch with
      | none =>
        exfalso
        simp only [FileSystemNode.childrenOf, FileSystemNode.children, Option.getD] at hDc
        rw [nodesChildren] at hDc
        exact absurd hDc (List.not_mem_nil D)
      | some cs =>
        have hcsof : (FileSystemNode.mk i nm ty (some cs) e).childrenOf = cs := rfl
        rw [hcsof] at hDc
        obtain ⟨ck, hck, hDk⟩ := mem_nodesChildren.1 hDc
        obtain ⟨l1, l2, hsplit⟩ := List.append_of_mem hck
        subst hsplit
        -- decompose the id list of the node into head, the blocks of
        -- the siblings left of ck, the block of ck, and the blocks right of ck
        have hids : idsList (.mk i nm ty (some (l1 ++ ck :: l2)) e) =
            i :: ((nodesChildren l1).map FileSystemNode.id ++
              (idsList ck ++ (nodesChildren l2).map FileSystemNode.id)) := by
          rw [idsList_eq, hcsof, nodesChildren_append, nodesChildren, List.map_append,
            List.map_append, idsList]
        rw [hids] at hnd
        rw [List.nodup_cons] at hnd
        obtain ⟨hhead, htail⟩ := hnd
        rw [List.nodup_append] at htail
        obtain ⟨hndA, hndKB, hdisjA⟩ := htail
        rw [List.nodup_append] at hndKB
        obtain ⟨hndK, hndB, hdisjKB⟩ := hndKB
        -- D's ids all live in ck's block
        have hKsub : idsList D ⊆ idsList ck := idsList_subset_of_mem hDk
        have hA_D : ∀ s ∈ (nodesChildren l1).map FileSystemNode.id, s ∉ idsList D :=
          fun s hsA hsD => hdisjA hsA (List.mem_append_left _ (hKsub hsD))
        have hB_D : ∀ s ∈ (nodesChildren l2).map FileSystemNode.id, s ∉ idsList D :=
          fun s hsB hsD => hdisjKB (hKsub hsD) hsB
        have hi_D : i ∉ idsList D := fun hiD =>
          hhead (List.mem_append_right _ (List.mem_append_left _ (hKsub hiD)))
        have hsib1 : ∀ c ∈ l1, D.id ∉ idsList c := by
          intro c hc hcon
          exact hdisjA (idsList_subset_nodesChildren_map hc hcon)
            (List.mem_append_left _ (id_mem_idsList hDk))
        have hsib2 : ∀ c ∈ l2, D.id ∉ idsList c := by
          intro c hc hcon
          exact hdisjKB (id_mem_idsList hDk) (idsList_subset_nodesChildren_map hc hcon)
        have hfix1 : removeChildrenById D.id l1 = l1 :=
          removeChildrenById_fix _ _ (fun c hc => removeById_fix _ c (hsib1 c hc))
        have hfix2 : removeChildrenById D.id l2 = l2 :=
          removeChildrenById_fix _ _ (fun c hc => removeById_fix _ c (hsib2 c hc))
        by_cases hckid : ck.id = D.id
        · -- the targeted child is D itself
          have hDck : D = ck := node_eq_of_id_eq ck D hndK hDk (by rw [hckid])
          subst hDck
          refine ⟨.mk i nm ty (some (l1 ++ l2)) e, ?_, ?_, ?_⟩
          · rw [removeById, if_neg hne, removeChildrenById_append, hfix1,
              removeChildrenById, removeById_none_of_id hckid, hfix2]
          · have hids2 : idsList (.mk i nm ty (some (l1 ++ l2)) e) =
                i :: ((nodesChildren l1).map FileSystemNode.id ++
                  (nodesChildren l2).map FileSystemNode.id) := by
              rw [idsList_eq]
              have : (FileSystemNode.mk i nm ty (some (l1 ++ l2)) e).childrenOf =
                  l1 ++ l2 := rfl
              rw [this, nodesChildren_append, List.map_append]
            rw [hids2, hids, List.filter_cons, List.filter_append, List.filter_append,
              filter_not_mem_eq_self hA_D, filter_not_mem_eq_self hB_D,
              filter_not_mem_eq_nil (fun s hs => hs), List.nil_append]
            simp [hi_D]
          · have hids2 : idsList (.mk i nm ty (some (l1 ++ l2)) e) =
                i :: ((nodesChildren l1).map FileSystemNode.id ++
                  (nodesChildren l2).map FileSystemNode.id) := by
              rw [idsList_eq]
              have : (FileSystemNode.mk i nm ty (some (l1 ++ l2)) e).childrenOf =
                  l1 ++ l2 := rfl
              rw [this, nodesChildren_append, List.map_append]
            simp only [countNodes_eq_length_idsList]
            rw [hids2, hids]
            simp only [List.length_cons, List.length_append]
            omega
        · -- D lies strictly inside the child ck
          have hckmem : ck ∈ nodesList (.mk i nm ty (some (l1 ++ ck :: l2)) e) := by
            rw [nodesList_eq, hcsof]
            exact List.mem_cons_of_mem _
              (mem_nodesChildren.2 ⟨ck, hck, self_mem_nodesList ck⟩)
          obtain ⟨ck2, hck2, hidsk2, hcountk2⟩ :=
            ih _ rfl ck hck hndK hDk hckid
          refine ⟨.mk i nm ty (some (l1 ++ ck2 :: l2)) e, ?_, ?_, ?_⟩
          · rw [removeById, if_neg hne, removeChildrenById_append, hfix1,
              removeChildrenById, hck2, hfix2]
          · have hids2 : idsList (.mk i nm ty (some (l1 ++ ck2 :: l2)) e) =
                i :: ((nodesChildren l1).map FileSystemNode.id ++
                  (idsList ck2 ++ (nodesChildren l2).map FileSystemNode.id)) := by
              rw [idsList_eq]
              have : (FileSystemNode.mk i nm ty (some (l1 ++ ck2 :: l2)) e).childrenOf =
                  l1 ++ ck2 :: l2 := rfl
              rw [this, nodesChildren_append, nodesChildren, List.map_append,
                List.map_append, idsList]
            rw [hids2, hids, List.filter_cons, List.filter_append, List.filter_append,
              filter_not_mem_eq_self hA_D, filter_not_mem_eq_self hB_D, hidsk2]
            simp [hi_D]
          · have hids2 : idsList (.mk i nm ty (some (l1 ++ ck2 :: l2)) e) =
                i :: ((nodesChildren l1).map FileSystemNode.id ++
                  (idsList ck2 ++ (nodesChildren l2).map FileSystemNode.id)) := by
              rw [idsList_eq]
              have : (FileSystemNode.mk i nm ty (some (l1 ++ ck2 :: l2)) e).childrenOf =
                  l1 ++ ck2 :: l2 := rfl
              rw [this, nodesChildren_append, nodesChildren, List.map_append,
                List.map_append, idsList]
            have h1 := hcountk2
            simp only [countNodes_eq_length_idsList] at h1 ⊢
            rw [hids2, hids]
            simp only [List.length_cons, List.length_append]
            omega

/-- Key replacement lemma: a total rule that leaves every node whose
id differs from the target unchanged, and never drops or reorders the
children of a node it rewrites (it may append), transforms a
unique-id tree containing a node `D` with the target id by replacing
`D` with `h D` in place: the rewritten node is in the result, nodes
whose subtree does not contain the target id survive unchanged, and
node/id counts change exactly by the difference between `D` and
`h D`. -/
theorem applyAll_localized (h : FileSystemNode → FileSystemNode) (targetId : String)
    (hfix : ∀ n : FileSystemNode, n.id ≠ targetId → h n = n)
    (hext : ∀ n : FileSystemNode, ∃ extra, (h n).childrenOf = n.childrenOf ++ extra)
    (D : FileSystemNode) (hDid : D.id = targetId) :
    ∀ t : FileSystemNode, (idsList t).Nodup → D ∈ nodesList t →
    ((h D ∈ nodesList (applyAll h t)) ∧
     (∀ n ∈ nodesList t, targetId ∉ idsList n → n ∈ nodesList (applyAll h t)) ∧
     (countNodes (applyAll h t) + countNodes D = countNodes t + countNodes (h D)) ∧
     (∀ s : String, (idsList (applyAll h t)).count s + (idsList D).count s =
       (idsList t).count s + (idsList (h D)).count s)) := by
  intro t
  induction t using FileSystemNode.ind2 with
  | h i nm ty ch e ih =>
    intro hnd hD
    have hnd2 := hnd
    rw [idsList_eq, List.nodup_cons] at hnd2
    obtain ⟨hhead, htail⟩ := hnd2
    rw [nodesList_eq] at hD
    rcases List.mem_cons.1 hD with hDt | hDc
    · -- the targeted node is this node itself
      have hidt : i = targetId := by rw [← hDid, hDt, FileSystemNode.id_mk]
      -- every strict descendant has an id different from the target
      have hdesc : ∀ m ∈ nodesChildren ((FileSystemNode.mk i nm ty ch e).childrenOf),
          h m = m := by
        intro m hm
        apply hfix
        intro hcon
        exact hhead (hidt ▸ hcon ▸ List.mem_map_of_mem FileSystemNode.id hm)
      have happ : applyAll h (.mk i nm ty ch e) = h (.mk i nm ty ch e) := by
        cases ch with
        | none => rw [applyAll]
        | some cs =>
          have hcs : applyAllChildren h cs = cs := by
            rw [applyAllChildren_eq_map]
            have : ∀ c ∈ cs, applyAll h c = c := by
              intro c hc
              apply applyAll_fix
              intro m hm
              apply hdesc
              simp only [FileSystemNode.childrenOf_mk, Option.getD]
              exact mem_nodesChildren.2 ⟨c, hc, hm⟩
            calc cs.map (applyAll h) = cs.map (fun c => c) := List.map_congr_left this
              _ = cs := List.map_id _
          rw [applyAll, hcs]
      rw [happ, ← hDt]
      refine ⟨self_mem_nodesList _, ?_, by omega, fun s => by omega⟩
      intro n hn hnot
      rw [hDt] at hn ⊢
      rw [nodesList_eq] at hn
      rcases List.mem_cons.1 hn with h1 | h2
      · exfalso
        apply hnot
        rw [h1, idsList_eq, ← hidt]
        exact List.mem_cons_self _ _
      · obtain ⟨extra, hx⟩ := hext (FileSystemNode.mk i nm ty ch e)
        rw [nodesList_decomp, hx, nodesChildren_append]
        exact List.mem_cons_of_mem _ (List.mem_append_left _ h2)
    · -- the targeted node lies in a child's subtree
      cases ch with
      | none =>
        exfalso
        simp only [FileSystemNode.childrenOf_mk, Option.getD] at hDc
        rw [nodesChildren] at hDc
        exact absurd hDc (List.not_mem_nil D)
      | some cs =>
        have hcsof : (FileSystemNode.mk i nm ty (some cs) e).childrenOf = cs := rfl
        rw [hcsof] at hDc
        obtain ⟨ck, hck, hDk⟩ := mem_nodesChildren.1 hDc
        obtain ⟨l1, l2, hsplit⟩ := List.append_of_mem hck
        subst hsplit
        have hids : idsList (.mk i nm ty (some (l1 ++ ck :: l2)) e) =
            i :: ((nodesChildren l1).map FileSystemNode.id ++
              (idsList ck ++ (nodesChildren l2).map FileSystemNode.id)) := by
          rw [idsList_eq, hcsof, nodesChildren_append, nodesChildren, List.map_append,
            List.map_append, idsList]
        have hnd3 := hnd
        rw [hids, List.nodup_cons] at hnd3
        obtain ⟨hhead2, htail2⟩ := hnd3
        rw [List.nodup_append] at htail2
        obtain ⟨hndA, hndKB, hdisjA⟩ := htail2
        rw [List.nodup_append] at hndKB
        obtain ⟨hndK, hndB, hdisjKB⟩ := hndKB
        have hxK : targetId ∈ idsList ck := hDid ▸ id_mem_idsList hDk
        -- this node's own id differs from the target
        have hine : i ≠ targetId := by
          intro hcon
          exact hhead2 (List.mem_append_right _ (List.mem_append_left _ (hcon ▸ hxK)))
        have hsib1 : ∀ c ∈ l1, targetId ∉ idsList c := by
          intro c hc hcon
          exact hdisjA (idsList_subset_nodesChildren_map hc hcon)
            (List.mem_append_left _ hxK)
        have hsib2 : ∀ c ∈ l2, targetId ∉ idsList c := by
          intro c hc hcon
          exact hdisjKB hxK (idsList_subset_nodesChildren_map hc hcon)
        have hfixc : ∀ c, targetId ∉ idsList c → applyAll h c = c := by
          intro c hc
          apply applyAll_fix
          intro m hm
          exact hfix m (fun hcon => hc (hcon ▸ id_mem_idsList hm))
        have hfix1 : ∀ c ∈ l1, applyAll h c = c := fun c hc => hfixc c (hsib1 c hc)
        have hfix2 : ∀ c ∈ l2, applyAll h c = c := fun c hc => hfixc c (hsib2 c hc)
        obtain ⟨ih1, ih2, ih3, ih4⟩ := ih _ rfl ck hck hndK hDk
        have hmapc : applyAllChildren h (l1 ++ ck :: l2) =
            l1 ++ applyAll h ck :: l2 := by
          rw [applyAllChildren_eq_map, List.map_append, List.map_cons,
            List.map_congr_left hfix1, List.map_congr_left hfix2,
            List.map_id', List.map_id']
        have happ : applyAll h (.mk i nm ty (some (l1 ++ ck :: l2)) e) =
            .mk i nm ty (some (l1 ++ applyAll h ck :: l2)) e := by
          rw [applyAll, hmapc]
          exact hfix _ (by rw [FileSystemNode.id_mk]; exact hine)
        have hids2 : idsList (.mk i nm ty (some (l1 ++ applyAll h ck :: l2)) e) =
            i :: ((nodesChildren l1).map FileSystemNode.id ++
              (idsList (applyAll h ck) ++ (nodesChildren l2).map FileSystemNode.id)) := by
          rw [idsList_eq]
          have : (FileSystemNode.mk i nm ty (some (l1 ++ applyAll h ck :: l2)) e).childrenOf =
              l1 ++ applyAll h ck :: l2 := rfl
          rw [this, nodesChildren_append, nodesChildren, List.map_append,
            List.map_append, idsList]
        rw [happ]
        refine ⟨?_, ?_, ?_, ?_⟩
        · rw [nodesList_eq]
          refine List.mem_cons_of_mem _ (mem_nodesChildren.2 ⟨applyAll h ck, ?_, ih1⟩)
          have : (FileSystemNode.mk i nm ty (some (l1 ++ applyAll h ck :: l2)) e).childrenOf =
              l1 ++ applyAll h ck :: l2 := rfl
          rw [this]
          exact List.mem_append_right _ (List.mem_cons_self _ _)
        · intro n hn hnot
          rw [nodesList_eq] at hn
          rcases List.mem_cons.1 hn with h1 | h2
          · exfalso
            apply hnot
            rw [h1, hids]
            exact List.mem_cons_of_mem _
              (List.mem_append_right _ (List.mem_append_left _ hxK))
          · rw [hcsof] at h2
            obtain ⟨c, hc, hnc⟩ := mem_nodesChildren.1 h2
            rw [nodesList_eq]
            refine List.mem_cons_of_mem _ ?_
            have hchof : (FileSystemNode.mk i nm ty
                (some (l1 ++ applyAll h ck :: l2)) e).childrenOf =
                l1 ++ applyAll h ck :: l2 := rfl
            rw [hchof]
            rcases List.mem_append.1 hc with hcl1 | hcr
            · exact mem_nodesChildren.2 ⟨c, List.mem_append_left _ hcl1, hnc⟩
            · rcases List.mem_cons.1 hcr with hcck | hcl2
              · subst hcck
                exact mem_nodesChildren.2 ⟨applyAll h c,
                  List.mem_append_right _ (List.mem_cons_self _ _), ih2 n hnc hnot⟩
              · exact mem_nodesChildren.2 ⟨c,
                  List.mem_append_right _ (List.mem_cons_of_mem _ hcl2), hnc⟩
        · have h3 := ih3
          simp only [countNodes_eq_length_idsList] at h3 ⊢
          rw [hids2, hids]
          simp only [List.length_cons, List.length_append]
          omega
        · intro s
          have h4 := ih4 s
          rw [hids2, hids]
          simp only [List.count_cons, List.count_append]
          omega

/-! Referential stability lemmas for the reference-tracking model. -/

theorem zip_self_addr_any_false :
    ∀ cs : List RNode, ((cs.zip cs).any fun p => p.1.addr != p.2.addr) = false := by
  intro cs
  induction cs with
  | nil => simp
  | cons c cs ih => simpa using ih

theorem RRuleResult.isKept_iff (r : RRuleResult) : r.isKept = true ↔ r = .kept := by
  cases r <;> simp [RRuleResult.isKept]

mutual

/-- If the rule returns every node of a subtree unchanged (the same
reference), the engine returns that subtree's original object and
allocates nothing. -/
theorem modifyTreeRef_keepAll :
    ∀ (n : RNode) (logic : RNode → RRuleResult) (c : Nat),
    ((nodesRList n).all fun m => (logic m).isKept) = true →
    modifyTreeRef n logic c = (some n, c)
  | .mk a i nm ty none e, logic, c, h => by
    have hk : (logic (.mk a i nm ty none e)).isKept = true := by
      have : (RNode.mk a i nm ty none e) ∈ nodesRList (.mk a i nm ty none e) := by
        rw [nodesRList]; exact List.mem_singleton.2 rfl
      exact List.all_eq_true.1 h _ this
    rw [RRuleResult.isKept_iff] at hk
    rw [modifyTreeRef, applyRefLogic, hk]
  | .mk a i nm ty (some cs) e, logic, c, h => by
    have hsplit : ((nodesRChildren cs).all fun m => (logic m).isKept) = true := by
      rw [nodesRList] at h
      simp only [List.all_cons, Bool.and_eq_true] at h
      exact h.2
    have hkids := modifyRefChildren_keepAll cs logic c hsplit
    have hk : (logic (.mk a i nm ty (some cs) e)).isKept = true := by
      rw [nodesRList] at h
      simp only [List.all_cons, Bool.and_eq_true] at h
      exact h.1
    rw [RRuleResult.isKept_iff] at hk
    rw [modifyTreeRef]
    simp only [hkids, filterMap_id_map_some]
    simp only [bne_self_eq_false, zip_self_addr_any_false, Bool.or_self,
      Bool.false_eq_true, if_false, applyRefLogic, hk]
termination_by structural n => n

theorem modifyRefChildren_keepAll :
    ∀ (cs : List RNode) (logic : RNode → RRuleResult) (c : Nat),
    ((nodesRChildren cs).all fun m => (logic m).isKept) = true →
    modifyRefChildren cs logic c = (cs.map some, c)
  | [], logic, c, _ => by rw [modifyRefChildren]; rfl
  | x :: xs, logic, c, h => by
    have hx : ((nodesRList x).all fun m => (logic m).isKept) = true := by
      rw [nodesRChildren] at h
      simp only [List.all_append, Bool.and_eq_true] at h
      exact h.1
    have hxs : ((nodesRChildren xs).all fun m => (logic m).isKept) = true := by
      rw [nodesRChildren] at h
      simp only [List.all_append, Bool.and_eq_true] at h
      exact h.2
    rw [modifyRefChildren, modifyTreeRef_keepAll x logic c hx,
      modifyRefChildren_keepAll xs logic c hxs]
    rfl
termination_by structural cs => cs

end

/-! Total-node forms of the three non-deleting rules, and the facts
needed to apply the localized-replacement lemma to them. -/

/-- The node transformation performed by the rename rule. -/
def renameH (nodeId newName : String) (n : FileSystemNode) : FileSystemNode :=
  if n.id == nodeId then .mk n.id newName n.type n.children n.isExpanded else n

theorem renameLogic_eq (nodeId newName : String) :
    renameLogic nodeId newName = fun n => some (renameH nodeId newName n) := by
  funext n
  rw [renameLogic, renameH]
  by_cases hc : (n.id == nodeId) = true
  · rw [if_pos hc, if_pos hc]
  · rw [if_neg hc, if_neg hc]

theorem renameH_fix (nodeId newName : String) (n : FileSystemNode)
    (h : n.id ≠ nodeId) : renameH nodeId newName n = n := by
  rw [renameH, if_neg (by simpa using h)]

theorem renameH_ext (nodeId newName : String) (n : FileSystemNode) :
    ∃ extra, (renameH nodeId newName n).childrenOf = n.childrenOf ++ extra := by
  refine ⟨[], ?_⟩
  rw [List.append_nil, renameH]
  by_cases hc : (n.id == nodeId) = true
  · rw [if_pos hc]
    cases n with
    | mk i nm ty ch e => rfl
  · rw [if_neg hc]

/-- The node transformation performed by the toggle-expand rule. -/
def toggleH (nodeId : String) (n : FileSystemNode) : FileSystemNode :=
  if n.id == nodeId && n.type == NodeType.folder then
    .mk n.id n.name n.type n.children (some (!(n.isExpanded.getD false)))
  else n

theorem toggleLogic_eq (nodeId : String) :
    toggleLogic nodeId = fun n => some (toggleH nodeId n) := by
  funext n
  rw [toggleLogic, toggleH]
  by_cases hc : (n.id == nodeId && n.type == NodeType.folder) = true
  · rw [if_pos hc, if_pos hc]
  · rw [if_neg hc, if_neg hc]

theorem toggleH_fix (nodeId : String) (n : FileSystemNode)
    (h : n.id ≠ nodeId) : toggleH nodeId n = n := by
  rw [toggleH, if_neg]
  simp [h]

theorem toggleH_ext (nodeId : String) (n : FileSystemNode) :
    ∃ extra, (toggleH nodeId n).childrenOf = n.childrenOf ++ extra := by
  refine ⟨[], ?_⟩
  rw [List.append_nil, toggleH]
  by_cases hc : (n.id == nodeId && n.type == NodeType.folder) = true
  · rw [if_pos hc]
    cases n with
    | mk i nm ty ch e => rfl
  · rw [if_neg hc]

/-- The node transformation performed by the add rule. -/
def addH (parentId : String) (newNode : FileSystemNode) (n : FileSystemNode) :
    FileSystemNode :=
  if n.id == parentId && n.type == NodeType.folder then
    .mk n.id n.name n.type (some (n.childrenOf ++ [newNode])) (some true)
  else n

theorem addLogic_eq (parentId : String) (newNode : FileSystemNode) :
    addLogic parentId newNode = fun n => some (addH parentId newNode n) := by
  funext n
  rw [addLogic, addH]
  by_cases hc : (n.id == parentId && n.type == NodeType.folder) = true
  · rw [if_pos hc, if_pos hc]
  · rw [if_neg hc, if_neg hc]

theorem addH_fix (parentId : String) (newNode : FileSystemNode) (n : FileSystemNode)
    (h : n.id ≠ parentId) : addH parentId newNode n = n := by
  rw [addH, if_neg]
  simp [h]

theorem addH_ext (parentId : String) (newNode : FileSystemNode) (n : FileSystemNode) :
    ∃ extra, (addH parentId newNode n).childrenOf = n.childrenOf ++ extra := by
  rw [addH]
  by_cases hc : (n.id == parentId && n.type == NodeType.folder) = true
  · refine ⟨[newNode], ?_⟩
    rw [if_pos hc]
    cases n with
    | mk i nm ty ch e => rfl
  · refine ⟨[], ?_⟩
    rw [List.append_nil, if_neg hc]

/-! The claims. -/

/-- C1: referential stability of the transform. (i) If the rule
returns every node of a (sub)tree unchanged, the engine returns the
identical top-level object and allocates nothing — so a subtree the
transform leaves entirely unchanged keeps its object identity. (ii) On
a root with children `[A, B]` (addresses 0, 1, 2, next fresh address
3), renaming `A` yields a freshly allocated root (address 4) and a
freshly allocated `A` (address 3), while the `B` component of the
result is the identical object (address 2, all fields unchanged). -/
theorem C1_referential_stability :
    (∀ (logic : RNode → RRuleResult) (t : RNode) (c : Nat),
        ((nodesRList t).all fun m => (logic m).isKept) = true →
        modifyTreeRef t logic c = (some t, c)) ∧
    (modifyTreeRef
        (.mk 0 "root" "proj" .folder
          (some [.mk 1 "a" "A" .file none none, .mk 2 "b" "B" .file none none])
          (some true))
        (renameLogicRef "a" "alpha") 3 =
      (some (.mk 4 "root" "proj" .folder
          (some [.mk 3 "a" "alpha" .file none none, .mk 2 "b" "B" .file none none])
          (some true)), 5) ∧
      (4 : Nat) ∉ [0, 1, 2] ∧ (3 : Nat) ∉ [0, 1, 2]) := by
  refine ⟨fun logic t c h => modifyTreeRef_keepAll t logic c h, rfl, by decide, by decide⟩

theorem C1_referential_stability_witness :
    modifyTreeRef
        (.mk 0 "root" "proj" .folder
          (some [.mk 1 "a" "A" .file none none, .mk 2 "b" "B" .file none none])
          (some true))
        (renameLogicRef "zz" "w") 3 =
      (some (.mk 0 "root" "proj" .folder
          (some [.mk 1 "a" "A" .file none none, .mk 2 "b" "B" .file none none])
          (some true)), 3) :=
  C1_referential_stability.1 (renameLogicRef "zz" "w") _ 3 rfl

/-- C4 counterexample: the claim quantifies over every tree and every
target id, but a loaded tree whose root id is not the sentinel
`"root"` is reduced to absent by a delete targeting the root's own id:
the `'root'` guard does not fire and the engine removes the root. -/
theorem C4_root_protection_counterexample :
    handleDeleteNode "r1" (some (.mk "r1" "proj" .folder (some []) none)) = none := rfl

/-- C4 (amended): a delete targeting the sentinel id `"root"` leaves
the tree untouched, and for a tree whose root carries the sentinel id
`"root"` (the invariant the application maintains), a delete with any
target id leaves the tree present with the root's id, name and kind
intact. -/
theorem C4_root_protection (t : FileSystemNode) (nodeId : String)
    (hroot : t.id = "root") :
    handleDeleteNode "root" (some t) = some t ∧
    ∃ t2, handleDeleteNode nodeId (some t) = some t2 ∧
      t2.id = t.id ∧ t2.name = t.name ∧ t2.type = t.type := by
  constructor
  · rw [handleDeleteNode, if_pos (show (("root" : String) == "root") = true from rfl)]
  · rw [handleDeleteNode]
    by_cases hid : nodeId = "root"
    · rw [if_pos (show ((nodeId : String) == "root") = true by rw [hid]; exact rfl)]
      exact ⟨t, rfl, rfl, rfl, rfl⟩
    · rw [if_neg (by simpa using hid)]
      rw [updateTree, modifyTree_delete]
      cases t with
      | mk i nm ty ch e =>
        rw [FileSystemNode.id_mk] at hroot
        have hne : i ≠ nodeId := by
          rw [hroot]; exact fun hcon => hid hcon.symm
        cases ch with
        | none =>
          rw [removeById, if_neg hne]
          exact ⟨_, rfl, rfl, rfl, rfl⟩
        | some cs =>
          rw [removeById, if_neg hne]
          exact ⟨_, rfl, rfl, rfl, rfl⟩

theorem C4_root_protection_witness :
    handleDeleteNode "root"
        (some (.mk "root" "proj" .folder (some []) none)) =
      some (.mk "root" "proj" .folder (some []) none) ∧
    ∃ t2, handleDeleteNode "x"
        (some (.mk "root" "proj" .folder (some []) none)) = some t2 ∧
      t2.id = (FileSystemNode.mk "root" "proj" .folder (some []) none).id ∧
      t2.name = (FileSystemNode.mk "root" "proj" .folder (some []) none).name ∧
      t2.type = (FileSystemNode.mk "root" "proj" .folder (some []) none).type :=
  C4_root_protection (.mk "root" "proj" .folder (some []) none) "x" rfl

/-- C2: on a tree with globally unique ids whose root carries the
sentinel id `"root"`, deleting a non-root node `D` (with `N`
descendants, so a subtree of `N + 1` nodes) removes exactly `D`'s
subtree: the surviving pre-order id sequence is the original one with
the subtree's ids filtered out (so surviving siblings keep their
relative order), the node count drops by exactly `N + 1`, every id of
the deleted subtree is gone, and every other id survives. -/
theorem C2_delete_removes_subtree (t D : FileSystemNode)
    (hroot : t.id = "root") (hnd : (idsList t).Nodup)
    (hD : D ∈ nodesList t) (hne : D ≠ t) :
    ∃ t2, handleDeleteNode D.id (some t) = some t2 ∧
      idsList t2 = (idsList t).filter (fun s => s ∉ idsList D) ∧
      countNodes t2 = countNodes t - countNodes D ∧
      (∀ s ∈ idsList D, s ∉ idsList t2) ∧
      (∀ s ∈ idsList t, s ∉ idsList D → s ∈ idsList t2) := by
  have hidne : D.id ≠ t.id := by
    intro hcon
    exact hne (node_eq_of_id_eq t D hnd hD hcon)
  obtain ⟨t2, h1, h2, h3⟩ :=
    removeById_of_mem D t hnd hD (fun h => hidne h.symm)
  refine ⟨t2, ?_, h2, by omega, ?_, ?_⟩
  · rw [handleDeleteNode, if_neg (by simpa using hroot ▸ hidne), updateTree,
      modifyTree_delete, h1]
  · intro s hsD hst2
    rw [h2, List.mem_filter] at hst2
    exact absurd hsD (by simpa using hst2.2)
  · intro s hst hnot
    rw [h2, List.mem_filter]
    exact ⟨hst, by simpa using hnot⟩

theorem C2_delete_removes_subtree_witness :
    ∃ t2, handleDeleteNode
        (FileSystemNode.mk "a" "sub" .folder
          (some [.mk "c" "c.txt" .file none none]) none).id
        (some (.mk "root" "proj" .folder
          (some [.mk "a" "sub" .folder (some [.mk "c" "c.txt" .file none none]) none,
                 .mk "b" "b.txt" .file none none])
          (some true))) = some t2 ∧
      idsList t2 =
        (idsList (.mk "root" "proj" .folder
          (some [.mk "a" "sub" .folder (some [.mk "c" "c.txt" .file none none]) none,
                 .mk "b" "b.txt" .file none none])
          (some true))).filter
          (fun s => s ∉ idsList (.mk "a" "sub" .folder
            (some [.mk "c" "c.txt" .file none none]) none)) ∧
      countNodes t2 =
        countNodes (.mk "root" "proj" .folder
          (some [.mk "a" "sub" .folder (some [.mk "c" "c.txt" .file none none]) none,
                 .mk "b" "b.txt" .file none none])
          (some true)) -
        countNodes (.mk "a" "sub" .folder
          (some [.mk "c" "c.txt" .file none none]) none) ∧
      (∀ s ∈ idsList (.mk "a" "sub" .folder
          (some [.mk "c" "c.txt" .file none none]) none), s ∉ idsList t2) ∧
      (∀ s ∈ idsList (.mk "root" "proj" .folder
          (some [.mk "a" "sub" .folder (some [.mk "c" "c.txt" .file none none]) none,
                 .mk "b" "b.txt" .file none none])
          (some true)),
        s ∉ idsList (.mk "a" "sub" .folder
          (some [.mk "c" "c.txt" .file none none]) none) → s ∈ idsList t2) :=
  C2_delete_removes_subtree _ _ rfl (by decide) (by decide) (by decide)

/-- C3: adding under a Directory node `D` of a unique-id tree appends
the new node as the last child of `D` and forces `D`'s expanded flag
`true`; exactly one node carrying the fresh id is added to the whole
tree, it sits inside the updated `D`'s subtree (so its parent chain
includes `D`), and every node whose subtree does not contain `D`
passes through unchanged. -/
theorem C3_add_semantics (t D : FileSystemNode) (parentId freshId name : String)
    (ty : NodeType)
    (hnd : (idsList t).Nodup) (hD : D ∈ nodesList t) (hid : D.id = parentId)
    (hty : D.type = NodeType.folder) (hfresh : freshId ∉ idsList t) :
    ∃ t2, handleAddNode parentId freshId name ty (some t) = some t2 ∧
      FileSystemNode.mk D.id D.name D.type
          (some (D.childrenOf ++ [newNodeData freshId name ty])) (some true) ∈
        nodesList t2 ∧
      countNodes t2 = countNodes t + 1 ∧
      (idsList t2).count freshId = 1 ∧
      newNodeData freshId name ty ∈ nodesList
        (FileSystemNode.mk D.id D.name D.type
          (some (D.childrenOf ++ [newNodeData freshId name ty])) (some true)) ∧
      (∀ n ∈ nodesList t, parentId ∉ idsList n → n ∈ nodesList t2) := by
  have hDh : addH parentId (newNodeData freshId name ty) D =
      FileSystemNode.mk D.id D.name D.type
        (some (D.childrenOf ++ [newNodeData freshId name ty])) (some true) := by
    rw [addH, if_pos (by simp [hid, hty])]
  obtain ⟨h1, h2, h3, h4⟩ :=
    applyAll_localized (addH parentId (newNodeData freshId name ty)) parentId
      (addH_fix parentId (newNodeData freshId name ty))
      (addH_ext parentId (newNodeData freshId name ty)) D hid t hnd hD
  rw [hDh] at h1
  have hcnew : countNodes (newNodeData freshId name ty) = 1 := by
    cases ty <;> rfl
  refine ⟨applyAll (addH parentId (newNodeData freshId name ty)) t, ?_, h1, ?_, ?_, ?_, h2⟩
  · rw [handleAddNode, updateTree, addLogic_eq, modifyTree_total]
  · -- the node count grows by exactly one
    have hhd : countNodes (addH parentId (newNodeData freshId name ty) D) =
        countNodes D + 1 := by
      rw [hDh, countNodes_eq]
      simp only [FileSystemNode.childrenOf_mk, Option.getD_some]
      rw [List.map_append, List.sum_append]
      have hD2 : countNodes D = 1 + (D.childrenOf.map countNodes).sum := by
        cases D with
        | mk i2 nm2 ty2 ch2 e2 => rw [countNodes_eq]
      rw [hD2]
      simp only [List.map_cons, List.map_nil, List.sum_cons, List.sum_nil, hcnew]
      omega
    omega
  · -- exactly one node carries the fresh id
    have hfD : freshId ∉ idsList D := fun hmem => hfresh (idsList_subset_of_mem hD hmem)
    have hcount_t : (idsList t).count freshId = 0 := List.count_eq_zero.2 hfresh
    have hcount_D : (idsList D).count freshId = 0 := List.count_eq_zero.2 hfD
    have hidne : freshId ≠ D.id := fun hcon => hfresh (hcon ▸ id_mem_idsList hD)
    have hidsnn : idsList (newNodeData freshId name ty) = [freshId] := by
      cases ty <;> rfl
    have hcount_hD :
        (idsList (addH parentId (newNodeData freshId name ty) D)).count freshId = 1 := by
      rw [hDh, idsList_eq]
      simp only [FileSystemNode.childrenOf_mk, Option.getD_some]
      rw [nodesChildren_append, List.map_append, nodesChildren, nodesChildren,
        List.append_nil]
      have htail : ((nodesChildren D.childrenOf).map FileSystemNode.id).count freshId
          = 0 := by
        have hc := hcount_D
        rw [idsList_decomp, List.count_cons] at hc
        omega
      have hnncount : ((nodesList (newNodeData freshId name ty)).map
          FileSystemNode.id).count freshId = 1 := by
        have heq : (nodesList (newNodeData freshId name ty)).map FileSystemNode.id =
            idsList (newNodeData freshId name ty) := rfl
        rw [heq, hidsnn]
        simp
      rw [List.count_cons, List.count_append, htail, hnncount]
      simp [hidne, Ne.symm hidne]
    have h4f := h4 freshId
    omega
  · -- the new node belongs to the updated D's subtree
    rw [nodesList_decomp]
    refine List.mem_cons_of_mem _
      (mem_nodesChildren.2 ⟨newNodeData freshId name ty, ?_,
        self_mem_nodesList (newNodeData freshId name ty)⟩)
    simp only [FileSystemNode.childrenOf_mk, Option.getD_some]
    exact List.mem_append_right _ (List.mem_cons_self _ _)

theorem C3_add_semantics_witness :
    ∃ t2, handleAddNode "d" "nf" "x.txt" NodeType.file
        (some (.mk "root" "proj" .folder
          (some [.mk "d" "dir" .folder (some []) none]) (some true))) = some t2 ∧
      FileSystemNode.mk
          (FileSystemNode.mk "d" "dir" .folder (some []) none).id
          (FileSystemNode.mk "d" "dir" .folder (some []) none).name
          (FileSystemNode.mk "d" "dir" .folder (some []) none).type
          (some ((FileSystemNode.mk "d" "dir" .folder (some []) none).childrenOf ++
            [newNodeData "nf" "x.txt" NodeType.file])) (some true) ∈
        nodesList t2 ∧
      countNodes t2 = countNodes (.mk "root" "proj" .folder
          (some [.mk "d" "dir" .folder (some []) none]) (some true)) + 1 ∧
      (idsList t2).count "nf" = 1 ∧
      newNodeData "nf" "x.txt" NodeType.file ∈ nodesList
        (FileSystemNode.mk
          (FileSystemNode.mk "d" "dir" .folder (some []) none).id
          (FileSystemNode.mk "d" "dir" .folder (some []) none).name
          (FileSystemNode.mk "d" "dir" .folder (some []) none).type
          (some ((FileSystemNode.mk "d" "dir" .folder (some []) none).childrenOf ++
            [newNodeData "nf" "x.txt" NodeType.file])) (some true)) ∧
      (∀ n ∈ nodesList (.mk "root" "proj" .folder
          (some [.mk "d" "dir" .folder (some []) none]) (some true)),
        "d" ∉ idsList n → n ∈ nodesList t2) :=
  C3_add_semantics _ _ "d" "nf" "x.txt" NodeType.file
    (by decide) (by decide) (by decide) (by decide) (by decide)

/-- C10: toggling a Directory node whose `isExpanded` flag is absent
(as in a loaded project file) installs the present flag `true` (the
JavaScript `!undefined`), and toggling the same node again installs
the present flag `false` — the flag does not stay absent. -/
theorem C10_toggle_absent_flag (t D : FileSystemNode)
    (hnd : (idsList t).Nodup) (hD : D ∈ nodesList t)
    (hty : D.type = NodeType.folder) (hexp : D.isExpanded = none) :
    ∃ t1, handleToggleExpand D.id (some t) = some t1 ∧
      FileSystemNode.mk D.id D.name D.type D.children (some true) ∈ nodesList t1 ∧
      ∃ t2, handleToggleExpand D.id (some t1) = some t2 ∧
        FileSystemNode.mk D.id D.name D.type D.children (some false) ∈ nodesList t2 := by
  have hDh1 : toggleH D.id D =
      FileSystemNode.mk D.id D.name D.type D.children (some true) := by
    rw [toggleH, if_pos (by simp [hty]), hexp]
    rfl
  obtain ⟨h1, _, _, h4⟩ :=
    applyAll_localized (toggleH D.id) D.id (toggleH_fix D.id) (toggleH_ext D.id)
      D rfl t hnd hD
  rw [hDh1] at h1
  refine ⟨applyAll (toggleH D.id) t, ?_, h1, ?_⟩
  · rw [handleToggleExpand, updateTree, toggleLogic_eq, modifyTree_total]
  · -- second toggle: the result tree still has unique ids, and the
    -- updated node now carries the present flag `true`
    have hsame : idsList (FileSystemNode.mk D.id D.name D.type D.children (some true)) =
        idsList D := by
      rw [idsList_decomp, idsList_decomp]
      cases D with
      | mk i nm ty ch e => rfl
    have hperm : List.Perm (idsList (applyAll (toggleH D.id) t)) (idsList t) := by
      rw [List.perm_iff_count]
      intro s
      have := h4 s
      rw [hDh1, hsame] at this
      omega
    have hnd1 : (idsList (applyAll (toggleH D.id) t)).Nodup :=
      (List.Perm.nodup_iff hperm).2 hnd
    set D1 := FileSystemNode.mk D.id D.name D.type D.children (some true) with hD1def
    have hD1id : D1.id = D.id := rfl
    have hDh2 : toggleH D.id D1 =
        FileSystemNode.mk D.id D.name D.type D.children (some false) := by
      rw [toggleH, if_pos (by simp [hD1def, hty])]
      rfl
    obtain ⟨h1b, _, _, _⟩ :=
      applyAll_localized (toggleH D.id) D.id (toggleH_fix D.id) (toggleH_ext D.id)
        D1 hD1id (applyAll (toggleH D.id) t) hnd1 h1
    rw [hDh2] at h1b
    refine ⟨_, ?_, h1b⟩
    rw [handleToggleExpand, updateTree, toggleLogic_eq, modifyTree_total]

theorem C10_toggle_absent_flag_witness :
    ∃ t1, handleToggleExpand
        (FileSystemNode.mk "d" "sub" .folder (some []) none).id
        (some (.mk "root" "proj" .folder
          (some [.mk "d" "sub" .folder (some []) none]) (some true))) = some t1 ∧
      FileSystemNode.mk
          (FileSystemNode.mk "d" "sub" .folder (some []) none).id
          (FileSystemNode.mk "d" "sub" .folder (some []) none).name
          (FileSystemNode.mk "d" "sub" .folder (some []) none).type
          (FileSystemNode.mk "d" "sub" .folder (some []) none).children
          (some true) ∈ nodesList t1 ∧
      ∃ t2, handleToggleExpand
          (FileSystemNode.mk "d" "sub" .folder (some []) none).id
          (some t1) = some t2 ∧
        FileSystemNode.mk
            (FileSystemNode.mk "d" "sub" .folder (some []) none).id
            (FileSystemNode.mk "d" "sub" .folder (some []) none).name
            (FileSystemNode.mk "d" "sub" .folder (some []) none).type
            (FileSystemNode.mk "d" "sub" .folder (some []) none).children
            (some false) ∈ nodesList t2 :=
  C10_toggle_absent_flag _ _ (by decide) (by decide) (by decide) (by decide)

/-! C9 support: behaviour of the bulk-expand recursion. -/

theorem folder_beq_folder : (NodeType.folder == NodeType.folder) = true := rfl

theorem recursiveSetChildren_eq_map (v : Bool) :
    ∀ cs : List FileSystemNode, recursiveSetChildren v cs = cs.map (recursiveSet v) := by
  intro cs
  induction cs with
  | nil => rw [recursiveSetChildren]; rfl
  | cons c cs ih => rw [recursiveSetChildren, ih, List.map_cons]

theorem recursiveSet_file (v : Bool) (n : FileSystemNode)
    (h : n.type = NodeType.file) : recursiveSet v n = n := by
  cases n with
  | mk i nm ty ch e =>
    rw [FileSystemNode.type_mk] at h
    subst h
    cases ch with
    | none => rw [recursiveSet, if_neg (by decide)]
    | some cs => rw [recursiveSet, if_neg (by decide)]

theorem stripExpandedChildren_recursiveSetChildren (v : Bool)
    (cs : List FileSystemNode)
    (ih : ∀ c ∈ cs, stripExpanded (recursiveSet v c) = stripExpanded c) :
    stripExpandedChildren (recursiveSetChildren v cs) = stripExpandedChildren cs := by
  induction cs with
  | nil => rfl
  | cons c rest ihl =>
    rw [recursiveSetChildren, stripExpandedChildren, stripExpandedChildren,
      ih c (List.mem_cons_self _ _),
      ihl (fun c2 hc2 => ih c2 (List.mem_cons_of_mem _ hc2))]

/-- The bulk-expand walk changes no id, name, kind or children
structure: erasing the expanded flags of its result gives back the
erasure of its input. -/
theorem stripExpanded_recursiveSet (v : Bool) :
    ∀ t : FileSystemNode, stripExpanded (recursiveSet v t) = stripExpanded t := by
  intro t
  induction t using FileSystemNode.ind2 with
  | h i nm ty ch e ih =>
    cases ty with
    | file => rw [recursiveSet_file v (FileSystemNode.mk i nm NodeType.file ch e) rfl]
    | folder =>
      cases ch with
      | none => rw [recursiveSet, if_pos folder_beq_folder, stripExpanded, stripExpanded]
      | some cs =>
        rw [recursiveSet, if_pos folder_beq_folder, stripExpanded, stripExpanded,
          stripExpandedChildren_recursiveSetChildren v cs (ih cs rfl)]

theorem mem_nodesList_of_child {t c : FileSystemNode} {cs : List FileSystemNode}
    (hch : t.childrenOf = cs) (hc : c ∈ cs) : c ∈ nodesList t := by
  rw [nodesList_decomp, hch]
  exact List.mem_cons_of_mem _ (mem_nodesChildren.2 ⟨c, hc, self_mem_nodesList c⟩)

/-- After the bulk-expand walk, every Directory node carries the
written flag (for trees whose File nodes have no children, the data
model invariant). -/
theorem recursiveSet_flags (v : Bool) :
    ∀ t : FileSystemNode,
    (∀ n ∈ nodesList t, n.type = NodeType.file → n.childrenOf = []) →
    ∀ n ∈ nodesList (recursiveSet v t), n.type = NodeType.folder →
    n.isExpanded = some v := by
  intro t
  induction t using FileSystemNode.ind2 with
  | h i nm ty ch e ih =>
    intro hWF n hn hnty
    cases ty with
    | file =>
      rw [recursiveSet_file v (FileSystemNode.mk i nm NodeType.file ch e) rfl] at hn
      have hch : (FileSystemNode.mk i nm NodeType.file ch e).childrenOf = [] :=
        hWF _ (self_mem_nodesList _) rfl
      rw [nodesList_decomp, hch, nodesChildren] at hn
      rcases List.mem_cons.1 hn with h1 | h2
      · rw [h1, FileSystemNode.type_mk] at hnty
        cases hnty
      · cases h2
    | folder =>
      cases ch with
      | none =>
        rw [recursiveSet, if_pos folder_beq_folder, nodesList_decomp] at hn
        simp only [FileSystemNode.childrenOf_mk, Option.getD_none] at hn
        rw [nodesChildren] at hn
        rcases List.mem_cons.1 hn with h1 | h2
        · rw [h1, FileSystemNode.isExpanded_mk]
        · cases h2
      | some cs =>
        rw [recursiveSet, if_pos folder_beq_folder, nodesList_decomp] at hn
        simp only [FileSystemNode.childrenOf_mk, Option.getD_some] at hn
        rcases List.mem_cons.1 hn with h1 | h2
        · rw [h1, FileSystemNode.isExpanded_mk]
        · rw [recursiveSetChildren_eq_map] at h2
          obtain ⟨c2, hc2, hn2⟩ := mem_nodesChildren.1 h2
          obtain ⟨c, hc, rfl⟩ := List.mem_map.1 hc2
          refine ih cs rfl c hc ?_ n hn2 hnty
          intro m hm hmty
          exact hWF m (nodesList_subset_of_mem
            (mem_nodesList_of_child (by simp) hc) hm) hmty

/-- Every File node of the input survives the bulk-expand walk with
all its fields (its whole subtree) unchanged. -/
theorem recursiveSet_preserves_files (v : Bool) :
    ∀ t : FileSystemNode, ∀ n ∈ nodesList t, n.type = NodeType.file →
    n ∈ nodesList (recursiveSet v t) := by
  intro t
  induction t using FileSystemNode.ind2 with
  | h i nm ty ch e ih =>
    intro n hn hnty
    cases ty with
    | file => rw [recursiveSet_file v (FileSystemNode.mk i nm NodeType.file ch e) rfl]; exact hn
    | folder =>
      cases ch with
      | none =>
        rw [nodesList_decomp] at hn
        simp only [FileSystemNode.childrenOf_mk, Option.getD_none] at hn
        rw [nodesChildren] at hn
        rcases List.mem_cons.1 hn with h1 | h2
        · rw [h1, FileSystemNode.type_mk] at hnty
          cases hnty
        · cases h2
      | some cs =>
        rw [nodesList_decomp] at hn
        simp only [FileSystemNode.childrenOf_mk, Option.getD_some] at hn
        rcases List.mem_cons.1 hn with h1 | h2
        · rw [h1, FileSystemNode.type_mk] at hnty
          cases hnty
        · obtain ⟨c, hc, hn2⟩ := mem_nodesChildren.1 h2
          rw [recursiveSet, if_pos folder_beq_folder, nodesList_decomp]
          simp only [FileSystemNode.childrenOf_mk, Option.getD_some]
          refine List.mem_cons_of_mem _ (mem_nodesChildren.2
            ⟨recursiveSet v c, ?_, ih cs rfl c hc n hn2 hnty⟩)
          rw [recursiveSetChildren_eq_map]
          exact List.mem_map_of_mem _ hc

/-- The bulk-expand walk preserves the invariant that File nodes have
no children. -/
theorem recursiveSet_preserves_WF (v : Bool) :
    ∀ t : FileSystemNode,
    (∀ n ∈ nodesList t, n.type = NodeType.file → n.childrenOf = []) →
    ∀ n ∈ nodesList (recursiveSet v t), n.type = NodeType.file →
    n.childrenOf = [] := by
  intro t
  induction t using FileSystemNode.ind2 with
  | h i nm ty ch e ih =>
    intro hWF n hn hnty
    cases ty with
    | file =>
      rw [recursiveSet_file v (FileSystemNode.mk i nm NodeType.file ch e) rfl] at hn
      exact hWF n hn hnty
    | folder =>
      cases ch with
      | none =>
        rw [recursiveSet, if_pos folder_beq_folder, nodesList_decomp] at hn
        simp only [FileSystemNode.childrenOf_mk, Option.getD_none] at hn
        rw [nodesChildren] at hn
        rcases List.mem_cons.1 hn with h1 | h2
        · rw [h1, FileSystemNode.type_mk] at hnty
          cases hnty
        · cases h2
      | some cs =>
        rw [recursiveSet, if_pos folder_beq_folder, nodesList_decomp] at hn
        simp only [FileSystemNode.childrenOf_mk, Option.getD_some] at hn
        rcases List.mem_cons.1 hn with h1 | h2
        · rw [h1, FileSystemNode.type_mk] at hnty
          cases hnty
        · rw [recursiveSetChildren_eq_map] at h2
          obtain ⟨c2, hc2, hn2⟩ := mem_nodesChildren.1 h2
          obtain ⟨c, hc, rfl⟩ := List.mem_map.1 hc2
          refine ih cs rfl c hc ?_ n hn2 hnty
          intro m hm hmty
          exact hWF m (nodesList_subset_of_mem
            (mem_nodesList_of_child (by simp) hc) hm) hmty

/-- C9: the bulk expand/collapse operation sets every Directory node's
expanded flag to the given value while changing no id, name, kind or
children structure, and leaves every File node (with all its fields)
unchanged; in particular collapsing everything and then expanding
everything leaves every Directory node with `expanded == true` and
every File node unaffected. Trees are assumed to satisfy the data
model invariant that File nodes have no children. -/
theorem C9_bulk_expand (t : FileSystemNode) (v : Bool)
    (hWF : ∀ n ∈ nodesList t, n.type = NodeType.file → n.childrenOf = []) :
    setAllExpanded v (some t) = some (recursiveSet v t) ∧
    stripExpanded (recursiveSet v t) = stripExpanded t ∧
    (∀ n ∈ nodesList (recursiveSet v t), n.type = NodeType.folder →
       n.isExpanded = some v) ∧
    (∀ n ∈ nodesList t, n.type = NodeType.file → n ∈ nodesList (recursiveSet v t)) ∧
    (∀ n ∈ nodesList (recursiveSet true (recursiveSet false t)),
       n.type = NodeType.folder → n.isExpanded = some true) ∧
    (∀ n ∈ nodesList t, n.type = NodeType.file →
       n ∈ nodesList (recursiveSet true (recursiveSet false t))) :=
  ⟨rfl, stripExpanded_recursiveSet v t, recursiveSet_flags v t hWF,
    recursiveSet_preserves_files v t,
    recursiveSet_flags true _ (recursiveSet_preserves_WF false t hWF),
    fun n hn hty => recursiveSet_preserves_files true _ _
      (recursiveSet_preserves_files false t n hn hty) hty⟩

theorem C9_bulk_expand_witness :
    setAllExpanded false
        (some (.mk "root" "proj" .folder
          (some [.mk "d" "dir" .folder (some [.mk "f" "f.txt" .file none none])
            (some true)]) (some true))) =
      some (recursiveSet false (.mk "root" "proj" .folder
          (some [.mk "d" "dir" .folder (some [.mk "f" "f.txt" .file none none])
            (some true)]) (some true))) ∧
    stripExpanded (recursiveSet false (.mk "root" "proj" .folder
          (some [.mk "d" "dir" .folder (some [.mk "f" "f.txt" .file none none])
            (some true)]) (some true))) =
      stripExpanded (.mk "root" "proj" .folder
          (some [.mk "d" "dir" .folder (some [.mk "f" "f.txt" .file none none])
            (some true)]) (some true)) ∧
    (∀ n ∈ nodesList (recursiveSet false (.mk "root" "proj" .folder
          (some [.mk "d" "dir" .folder (some [.mk "f" "f.txt" .file none none])
            (some true)]) (some true))),
       n.type = NodeType.folder → n.isExpanded = some false) ∧
    (∀ n ∈ nodesList (.mk "root" "proj" .folder
          (some [.mk "d" "dir" .folder (some [.mk "f" "f.txt" .file none none])
            (some true)]) (some true)),
       n.type = NodeType.file → n ∈ nodesList (recursiveSet false
        (.mk "root" "proj" .folder
          (some [.mk "d" "dir" .folder (some [.mk "f" "f.txt" .file none none])
            (some true)]) (some true)))) ∧
    (∀ n ∈ nodesList (recursiveSet true (recursiveSet false
        (.mk "root" "proj" .folder
          (some [.mk "d" "dir" .folder (some [.mk "f" "f.txt" .file none none])
            (some true)]) (some true)))),
       n.type = NodeType.folder → n.isExpanded = some true) ∧
    (∀ n ∈ nodesList (.mk "root" "proj" .folder
          (some [.mk "d" "dir" .folder (some [.mk "f" "f.txt" .file none none])
            (some true)]) (some true)),
       n.type = NodeType.file → n ∈ nodesList (recursiveSet true (recursiveSet false
        (.mk "root" "proj" .folder
          (some [.mk "d" "dir" .folder (some [.mk "f" "f.txt" .file none none])
            (some true)]) (some true))))) :=
  C9_bulk_expand _ false (by decide)

/-! C8 support: the archive walk never reads `isExpanded`, so erasing
every expanded flag does not change the produced entries. -/

theorem addNodeToZip_strip :
    ∀ (t : FileSystemNode) (parentPath : String),
    addNodeToZip (stripExpanded t) parentPath = addNodeToZip t parentPath := by
  intro t
  induction t using FileSystemNode.ind2 with
  | h i nm ty ch e ih =>
    intro parentPath
    cases ty with
    | file =>
      cases ch with
      | none => rfl
      | some cs => rfl
    | folder =>
      cases ch with
      | none => rfl
      | some cs =>
        show ZipEntry.dir (parentPath ++ nm ++ "/") ::
            addChildrenToZip (stripExpandedChildren cs) (parentPath ++ nm ++ "/") =
          ZipEntry.dir (parentPath ++ nm ++ "/") ::
            addChildrenToZip cs (parentPath ++ nm ++ "/")
        congr 1
        have ihcs := ih cs rfl
        clear ih
        induction cs with
        | nil => rfl
        | cons c rest ihl =>
          rw [stripExpandedChildren, addChildrenToZip, addChildrenToZip,
            ihcs c (List.mem_cons_self _ _),
            ihl (fun c2 hc2 => ihcs c2 (List.mem_cons_of_mem _ hc2))]

theorem createZipFromStructure_strip (t : FileSystemNode) :
    createZipFromStructure (stripExpanded t) = createZipFromStructure t := by
  cases t with
  | mk i nm ty ch e =>
    cases ch with
    | none => rfl
    | some cs =>
      show ZipEntry.dir (nm ++ "/") :: addChildrenToZip (stripExpandedChildren cs) (nm ++ "/") =
        ZipEntry.dir (nm ++ "/") :: addChildrenToZip cs (nm ++ "/")
      congr 1
      induction cs with
      | nil => rfl
      | cons c rest ihl =>
        rw [stripExpandedChildren, addChildrenToZip, addChildrenToZip,
          addNodeToZip_strip, ihl]

/-- C8: the archive is independent of expansion state — two trees that
agree after erasing every `isExpanded` flag (identical id / name /
kind / children skeletons, arbitrary expansion flags) produce
identical archives, because the builder traverses all descendants
regardless of expansion state. -/
theorem C8_archive_expansion_independent (t1 t2 : FileSystemNode)
    (h : stripExpanded t1 = stripExpanded t2) :
    createZipFromStructure t1 = createZipFromStructure t2 := by
  rw [← createZipFromStructure_strip t1, ← createZipFromStructure_strip t2, h]

theorem C8_archive_expansion_independent_witness :
    createZipFromStructure
        (.mk "r" "proj" .folder
          (some [.mk "s" "src" .folder
            (some [.mk "a" "a.txt" .file none none]) (some true)]) (some true)) =
      createZipFromStructure
        (.mk "r" "proj" .folder
          (some [.mk "s" "src" .folder
            (some [.mk "a" "a.txt" .file none none]) (some false)]) none) :=
  C8_archive_expansion_independent _ _ (by decide)

/-- C5 counterexample: confirming a rename with the input `" x "`
(which trims to the non-empty `"x"`) installs the raw input `" x "`,
not its trimmed form — `handleConfirm` passes `inputValue` to the
rename handler untrimmed. -/
theorem C5_rename_input_counterexample :
    handleConfirm none true " x " "c1" "fid"
        (some (.mk "root" "p" .folder
          (some [.mk "c1" "old" .file none none]) (some true))) =
      some (.mk "root" "p" .folder
          (some [.mk "c1" " x " .file none none]) (some true)) ∧
    jsTrim " x " = "x" ∧ (" x " : String) ≠ "x" := by
  exact ⟨rfl, by decide, by decide⟩

/-- C5 (amended): an input that trims to the empty string discards the
edit and leaves the tree unchanged; otherwise, for a unique-id tree
containing the target node `D`, the rename installs the input exactly
as typed (not trimmed) as `D`'s new name. -/
theorem C5_rename_input :
    (∀ (isAdding : Option NodeType) (isRenaming : Bool)
       (inputValue nodeId freshId : String) (tree : Option FileSystemNode),
       jsTrim inputValue = "" →
       handleConfirm isAdding isRenaming inputValue nodeId freshId tree = tree) ∧
    (∀ (t D : FileSystemNode) (inputValue freshId : String),
       (idsList t).Nodup → D ∈ nodesList t → jsTrim inputValue ≠ "" →
       ∃ t2, handleConfirm none true inputValue D.id freshId (some t) = some t2 ∧
         FileSystemNode.mk D.id inputValue D.type D.children D.isExpanded ∈
           nodesList t2) := by
  constructor
  · intro isAdding isRenaming inputValue nodeId freshId tree htrim
    rw [handleConfirm.eq_def, if_pos (show (jsTrim inputValue == "") = true by
      rw [htrim]; exact rfl)]
  · intro t D inputValue freshId hnd hD htrim
    rw [handleConfirm.eq_def, if_neg (by simpa using htrim)]
    rw [handleRenameNode, updateTree, renameLogic_eq, modifyTree_total]
    have hDh : renameH D.id inputValue D =
        FileSystemNode.mk D.id inputValue D.type D.children D.isExpanded := by
      rw [renameH, if_pos (by simp)]
    obtain ⟨h1, _, _, _⟩ :=
      applyAll_localized (renameH D.id inputValue) D.id
        (renameH_fix D.id inputValue) (renameH_ext D.id inputValue) D rfl
        t hnd hD
    exact ⟨_, rfl, hDh ▸ h1⟩

theorem C5_rename_input_witness :
    handleConfirm (some NodeType.file) false " \x0B\u00A0 " "q" "f0"
        (some (.mk "root" "p" .folder (some []) none)) =
      some (.mk "root" "p" .folder (some []) none) ∧
    ∃ t2, handleConfirm none true " nm " "c1" "f0"
        (some (.mk "root" "p" .folder
          (some [.mk "c1" "old" .file none (some false)]) (some true))) = some t2 ∧
      FileSystemNode.mk "c1" " nm " .file none (some false) ∈ nodesList t2 := by
  constructor
  · exact C5_rename_input.1 (some NodeType.file) false " \x0B\u00A0 " "q" "f0" _ (by decide)
  · exact C5_rename_input.2
      (.mk "root" "p" .folder (some [.mk "c1" "old" .file none (some false)]) (some true))
      (.mk "c1" "old" .file none (some false)) " nm " "f0"
      (by decide) (by decide) (by decide)

/-- C6 counterexample: on the root "proj" with single child directory
"src" containing the single file "a.txt", the archive holds a third
entry — the top-level directory "proj/" created for the root — so it
does not consist of exactly the two claimed entries. -/
theorem C6_archive_shape_counterexample :
    (createZipFromStructure
        (.mk "r" "proj" .folder
          (some [.mk "s" "src" .folder
            (some [.mk "a" "a.txt" .file none none]) (some true)])
          (some true))).length = 3 ∧
    ZipEntry.dir "proj/" ∈ createZipFromStructure
        (.mk "r" "proj" .folder
          (some [.mk "s" "src" .folder
            (some [.mk "a" "a.txt" .file none none]) (some true)])
          (some true)) ∧
    ZipEntry.dir "proj/" ≠ ZipEntry.dir "proj/src/" ∧
    ZipEntry.dir "proj/" ≠ ZipEntry.file "proj/src/a.txt" "" := by
  refine ⟨rfl, by decide, by decide, by decide⟩

/-- C6 (amended): that archive consists of exactly three entries, in
creation order — directory "proj/" (the root's own entry), directory
"proj/src/", and the zero-length file "proj/src/a.txt". -/
theorem C6_archive_shape :
    createZipFromStructure
        (.mk "r" "proj" .folder
          (some [.mk "s" "src" .folder
            (some [.mk "a" "a.txt" .file none none]) (some true)])
          (some true)) =
      [ZipEntry.dir "proj/", ZipEntry.dir "proj/src/",
       ZipEntry.file "proj/src/a.txt" ""] := rfl

/-- C7 counterexample: when archive generation fails, the failure is
not observable by the caller — the `catch` inside
`createZipFromStructure` swallows the rejection (alerting the user)
and the call resolves normally, so `raisedToCaller` is `false`, not
`true` as the claim's "the caller can observe the failure" requires. -/
theorem C7_archive_failure_counterexample :
    (createZipRun (.mk "r" "proj" .folder (some []) none) true false).raisedToCaller
        = false ∧
    (createZipRun (.mk "r" "proj" .folder (some []) none) true false).alerted = true ∧
    (createZipRun (.mk "r" "proj" .folder (some []) none) true false).offered = none :=
  ⟨rfl, rfl, rfl⟩

/-- C7 (amended): whenever archive generation fails, no partial
archive is offered for download and a single terminal error is shown
to the user as an alert, but the call returns normally — the caller
cannot observe the failure as a rejected call. -/
theorem C7_archive_failure (rootNode : FileSystemNode) (jszipLoaded : Bool) :
    createZipRun rootNode jszipLoaded false =
      ⟨none, true, false⟩ := by
  cases jszipLoaded with
  | false => rfl
  | true => rfl

end Struktur
